import Mathlib

/-!
# Laplacian edge detector (`edge_detector.c`)

A shallow embedding of the convolution worker `compute_laplacian_threadfn` and of the
orchestrator `apply_filters`, followed by the properties established about them.

Conventions of the embedding.

* `unsigned long` values are natural numbers below `2 ^ 64`; every `unsigned long`
  operation of the source is reduced modulo `2 ^ 64`.
* `int` values are integers in `[-2 ^ 31, 2 ^ 31)`; the conversion `(int) j` of an
  `unsigned long` and every `int` operation are reduced to that range by two's
  complement wrap-around (`wrapInt`).
* `unsigned char` channels are `Fin 256`.
* A pixel buffer is the memory behind a `PPMPixel *`: a map from pixel offsets to pixels.
* The worker threads of `apply_filters` write disjoint data and are joined before the
  buffer is returned; they are run one after the other, in an order given by the
  environment.
-/

namespace EdgeDetector

/-! ## Data model -/

/-- The number of values of an `unsigned long`. -/
def ULONG : Nat := 2 ^ 64

/-- The macro `LAPLACIAN_THREADS`. -/
def LAPLACIAN_THREADS : Nat := 4

/-- The macro `FILTER_WIDTH`. -/
def FILTER_WIDTH : Nat := 3

/-- The macro `FILTER_HEIGHT`. -/
def FILTER_HEIGHT : Nat := 3

/-- The struct `PPMPixel`: three `unsigned char` channels. -/
structure PPMPixel where
  r : Fin 256
  g : Fin 256
  b : Fin 256
  deriving DecidableEq, Repr

/-- The memory behind a `PPMPixel *`, addressed by pixel offset. -/
abbrev Buffer := Nat → PPMPixel

/-- The struct `parameter` without its two buffer pointers, which are passed alongside. -/
structure parameter where
  w : Nat
  h : Nat
  start : Nat
  size : Nat
  deriving DecidableEq, Repr

/-- The store `buf[k] = p`. -/
def writePixel (buf : Buffer) (k : Nat) (p : PPMPixel) : Buffer :=
  fun n => if n = k then p else buf n

/-! ## Machine arithmetic -/

/-- Reduction of an integer to the range of `int` (two's complement, 32 bits). -/
def wrapInt (v : Int) : Int := (v + 2 ^ 31) % 2 ^ 32 - 2 ^ 31

/-- The conversion `(int) n` of an `unsigned long`. -/
def toInt (n : Nat) : Int := wrapInt (n : Int)

/-- The conversion of an `int` to `unsigned long` in a mixed comparison or product. -/
def toULong (v : Int) : Nat := (v % 2 ^ 64).toNat

/-- The C library `fmin` on integer-valued doubles. -/
def fmin (a b : Int) : Int := if a < b then a else b

/-- The C library `fmax` on integer-valued doubles. -/
def fmax (a b : Int) : Int := if a < b then b else a

/-- The conversion `(unsigned char) v` of an integer-valued double. -/
def toUChar (v : Int) : Fin 256 := Fin.ofNat (v % 256).toNat

/-! ## `compute_laplacian_threadfn` -/

/-- The local array `laplacian`. -/
def laplacian : List (List Int) :=
  [[-1, -1, -1],
   [-1,  8, -1],
   [-1, -1, -1]]

/-- The entry `laplacian[fi][fj]`. -/
def laplacianAt (fi fj : Nat) : Int := (laplacian.getD fi []).getD fj 0

/-- The three `int` accumulators `red`, `green`, `blue`. -/
structure Acc where
  red : Int
  green : Int
  blue : Int
  deriving DecidableEq, Repr

/-- The body of the two filter loops: one kernel tap `(fi, fj)` at the target `(i, j)`. -/
def tap (image : Buffer) (w h i j fi fj : Nat) (acc : Acc) : Acc :=
  let x := wrapInt (wrapInt (toInt j + (fj : Int)) - ((FILTER_WIDTH / 2 : Nat) : Int))
  let y := wrapInt (wrapInt (toInt i + (fi : Int)) - ((FILTER_HEIGHT / 2 : Nat) : Int))
  if 0 ≤ x ∧ 0 ≤ y ∧ toULong x < w ∧ toULong y < h then
    let pixel := image ((toULong y * w + toULong x) % ULONG)
    { red := wrapInt (acc.red + wrapInt ((pixel.r.val : Int) * laplacianAt fi fj))
      green := wrapInt (acc.green + wrapInt ((pixel.g.val : Int) * laplacianAt fi fj))
      blue := wrapInt (acc.blue + wrapInt ((pixel.b.val : Int) * laplacianAt fi fj)) }
  else acc

/-- The loop `for (fj = 0; fj < FILTER_WIDTH; ++fj)`. -/
def filterRow (image : Buffer) (w h i j fi : Nat) (acc : Acc) : Acc :=
  (List.range FILTER_WIDTH).foldl (fun a fj => tap image w h i j fi fj a) acc

/-- The loop `for (fi = 0; fi < FILTER_HEIGHT; ++fi)`, from `red = green = blue = 0`. -/
def filterSum (image : Buffer) (w h i j : Nat) : Acc :=
  (List.range FILTER_HEIGHT).foldl (fun a fi => filterRow image w h i j fi a) ⟨0, 0, 0⟩

/-- The pixel stored at `result[i * w + j]`: the clamped accumulators. -/
def computePixel (image : Buffer) (w h i j : Nat) : PPMPixel :=
  let acc := filterSum image w h i j
  { r := toUChar (fmax 0 (fmin 255 acc.red))
    g := toUChar (fmax 0 (fmin 255 acc.green))
    b := toUChar (fmax 0 (fmin 255 acc.blue)) }

/-- The loop `for (j = 0; j < w; ++j)` of row `i`, entered at column `j`; the first
argument bounds the number of iterations. -/
def colLoop (image : Buffer) (w h i : Nat) : Nat → Nat → Buffer → Buffer
  | 0, _, result => result
  | fuel + 1, j, result =>
    if j < w then
      colLoop image w h i fuel ((j + 1) % ULONG)
        (writePixel result ((i * w + j) % ULONG) (computePixel image w h i j))
    else result

/-- The loop `for (i = start; i < start + size && i < h; ++i)`, entered at row `i`; the
first argument bounds the number of iterations. -/
def rowLoop (image : Buffer) (p : parameter) : Nat → Nat → Buffer → Buffer
  | 0, _, result => result
  | fuel + 1, i, result =>
    if i < (p.start + p.size) % ULONG ∧ i < p.h then
      rowLoop image p fuel ((i + 1) % ULONG) (colLoop image p.w p.h i p.w 0 result)
    else result

/-- The thread function: the new contents of `param->result`. Row `i` runs at most
`h - start` times and column `j` at most `w` times, which is the iteration bound given
to the two loops. -/
def compute_laplacian_threadfn (image : Buffer) (p : parameter) (result : Buffer) : Buffer :=
  rowLoop image p (p.h - p.start) p.start result

/-! ## `apply_filters` -/

/-- The value `work = h / LAPLACIAN_THREADS`. -/
def work (h : Nat) : Nat := h / LAPLACIAN_THREADS

/-- The field `params[i].start = i * work`. -/
def workerStart (h i : Nat) : Nat := (i * work h) % ULONG

/-- The field `params[i].size`, with the unsigned subtraction of the last worker. -/
def workerSize (h i : Nat) : Nat :=
  if i = LAPLACIAN_THREADS - 1 then (h + ULONG - (i * work h) % ULONG) % ULONG else work h

/-- The struct `params[i]` filled in by the creation loop. -/
def params (w h i : Nat) : parameter :=
  { w := w, h := h, start := workerStart h i, size := workerSize h i }

/-- What `apply_filters` takes from its environment. -/
structure Env where
  /-- The contents of the block returned by `malloc`, or `none` when it returns `NULL`. -/
  malloc : Option Buffer
  /-- Whether `pthread_create` fails for worker `i`. -/
  createFails : Nat → Bool
  /-- The order in which the created workers run to completion before the join. -/
  order : List Nat

/-- The workers of `order` run one after the other on the shared output buffer. -/
def runWorkers (image : Buffer) (w h : Nat) (order : List Nat) (result : Buffer) : Buffer :=
  order.foldl (fun res i => compute_laplacian_threadfn image (params w h i) res) result

/-- The function `apply_filters`: `none` is the `NULL` return, otherwise the filtered
buffer (the elapsed time is not part of this model). -/
def apply_filters (image : Buffer) (w h : Nat) (env : Env) : Option Buffer :=
  match env.malloc with
  | none => none
  | some result =>
    if (List.range LAPLACIAN_THREADS).any env.createFails then none
    else some (runWorkers image w h env.order result)

/-- The environment in which allocation and thread creation succeed and the workers
finish in creation order. -/
def okEnv (init : Buffer) : Env :=
  { malloc := some init, createFails := fun _ => false, order := List.range LAPLACIAN_THREADS }

/-! ## Reference definitions, following the specification -/

/-- Clamp of a signed value into `[0, 255]`. -/
def clamp255 (v : Int) : Int := if v < 0 then 0 else if 255 < v then 255 else v

/-- The fixed kernel `[[-1,-1,-1],[-1,8,-1],[-1,-1,-1]]`, centred on the target pixel. -/
def kernel (fi fj : Nat) : Int := if fi = 1 ∧ fj = 1 then 8 else -1

/-- One term of the zero-padded sum at target `(x, y)`: the weighted channel value when
the source coordinate `(x + fj - 1, y + fi - 1)` lies in `[0, w) × [0, h)`, else zero. -/
def paddedTerm (chan : PPMPixel → Fin 256) (image : Buffer) (w h x y fi fj : Nat) : Int :=
  if 1 ≤ x + fj ∧ x + fj - 1 < w ∧ 1 ≤ y + fi ∧ y + fi - 1 < h then
    kernel fi fj * ((chan (image ((y + fi - 1) * w + (x + fj - 1)))).val : Int)
  else 0

/-- The zero-padded 3×3 sum of one channel at target `(x, y)`. -/
def paddedSum (chan : PPMPixel → Fin 256) (image : Buffer) (w h x y : Nat) : Int :=
  ((List.range 3).map fun fi =>
    ((List.range 3).map fun fj => paddedTerm chan image w h x y fi fj).sum).sum

/-- The full nine-term sum at an interior target `(x, y)`: eight times the channel at the
target minus the same channel over its eight neighbours. -/
def interiorSum (chan : PPMPixel → Fin 256) (image : Buffer) (w x y : Nat) : Int :=
  8 * ((chan (image (y * w + x))).val : Int) -
    (((chan (image ((y - 1) * w + (x - 1)))).val : Int) +
      ((chan (image ((y - 1) * w + x))).val : Int) +
      ((chan (image ((y - 1) * w + (x + 1)))).val : Int) +
      ((chan (image (y * w + (x - 1)))).val : Int) +
      ((chan (image (y * w + (x + 1)))).val : Int) +
      ((chan (image ((y + 1) * w + (x - 1)))).val : Int) +
      ((chan (image ((y + 1) * w + x))).val : Int) +
      ((chan (image ((y + 1) * w + (x + 1)))).val : Int))

/-! ## Auxiliary definitions -/

/-- The black pixel `(0, 0, 0)`. -/
def black : PPMPixel := ⟨0, 0, 0⟩

/-- The source image of the large-height runs: value 1 at pixel offset `off`, black elsewhere. -/
def dotImage (off : Nat) : Buffer := fun k => if k = off then ⟨1, 1, 1⟩ else black

/-- Membership of pixel offset `k` in the slice of rows that the worker of `p` processes:
rows `start ≤ y < start + size` (the `unsigned long` sum of the loop test) with `y < h`. -/
def inSlice (p : parameter) (k : Nat) : Prop :=
  0 < p.w ∧ p.start ≤ k / p.w ∧ k / p.w < (p.start + p.size) % ULONG ∧ k / p.w < p.h

instance (p : parameter) (k : Nat) : Decidable (inSlice p k) := by
  unfold inSlice; infer_instance

/-- Accumulators whose three values are at most `m` in magnitude. -/
def Acc.Within (m : Int) (a : Acc) : Prop :=
  (-m ≤ a.red ∧ a.red ≤ m) ∧ (-m ≤ a.green ∧ a.green ≤ m) ∧ (-m ≤ a.blue ∧ a.blue ≤ m)

/-- The environment lets `apply_filters` run to its `return result`: `malloc` returns a
block with contents `init`, the four `pthread_create` calls succeed, and the four workers
run to completion in some order. -/
def Env.Runs (env : Env) (init : Buffer) : Prop :=
  env.malloc = some init ∧
    (∀ i, i < LAPLACIAN_THREADS → env.createFails i = false) ∧
    List.Perm env.order (List.range LAPLACIAN_THREADS)

/-- Row `y` belongs to the row range of worker `i` of an image of height `h`. -/
def inRange (w h i y : Nat) : Prop :=
  (params w h i).start ≤ y ∧ y < (params w h i).start + (params w h i).size

instance (w h i y : Nat) : Decidable (inRange w h i y) := by
  unfold inRange; infer_instance

/-- The source image whose pixels are all `p`. -/
def constImage (p : PPMPixel) : Buffer := fun _ => p

/-- The white pixel `(255, 255, 255)`. -/
def white : PPMPixel := ⟨255, 255, 255⟩

/-! ## Accesses and accumulators of the worker -/

/-- The pixel offset at which `tap` reads `image`, when its bounds test passes. -/
def tapRead (w h i j fi fj : Nat) : Option Nat :=
  let x := wrapInt (wrapInt (toInt j + (fj : Int)) - ((FILTER_WIDTH / 2 : Nat) : Int))
  let y := wrapInt (wrapInt (toInt i + (fi : Int)) - ((FILTER_HEIGHT / 2 : Nat) : Int))
  if 0 ≤ x ∧ 0 ≤ y ∧ toULong x < w ∧ toULong y < h then
    some ((toULong y * w + toULong x) % ULONG)
  else none

/-- The stores of `colLoop`, in order: the offset `i * w + j` written, with `i` and `j`. -/
def colLoopTrace (w i : Nat) : Nat → Nat → List (Nat × Nat × Nat)
  | 0, _ => []
  | fuel + 1, j =>
    if j < w then ((i * w + j) % ULONG, i, j) :: colLoopTrace w i fuel ((j + 1) % ULONG)
    else []

/-- The stores of `rowLoop`, in order. -/
def rowLoopTrace (p : parameter) : Nat → Nat → List (Nat × Nat × Nat)
  | 0, _ => []
  | fuel + 1, i =>
    if i < (p.start + p.size) % ULONG ∧ i < p.h then
      colLoopTrace p.w i p.w 0 ++ rowLoopTrace p fuel ((i + 1) % ULONG)
    else []

/-- The stores of `compute_laplacian_threadfn`, in order. -/
def threadTrace (p : parameter) : List (Nat × Nat × Nat) :=
  rowLoopTrace p (p.h - p.start) p.start

/-- The buffer after the stores of a trace, each of the pixel computed for its `(i, j)`. -/
def replay (image : Buffer) (w h : Nat) (trace : List (Nat × Nat × Nat)) (result : Buffer) :
    Buffer :=
  trace.foldl (fun res t => writePixel res t.1 (computePixel image w h t.2.1 t.2.2)) result

/-- The kernel offsets `(fi, fj)` in the order the two filter loops visit them. -/
def tapOrder : List (Nat × Nat) :=
  [(0, 0), (0, 1), (0, 2), (1, 0), (1, 1), (1, 2), (2, 0), (2, 1), (2, 2)]

/-- The accumulators after the first `n` additions of the filter loops at target `(i, j)`. -/
def accAfter (image : Buffer) (w h i j n : Nat) : Acc :=
  (tapOrder.take n).foldl (fun a t => tap image w h i j t.1 t.2 a) ⟨0, 0, 0⟩

/-- The body of the filter loops computed in unbounded integers: `tap` without the
reduction of products and sums to the range of `int`. -/
def tapExact (image : Buffer) (w h i j fi fj : Nat) (acc : Acc) : Acc :=
  let x := wrapInt (wrapInt (toInt j + (fj : Int)) - ((FILTER_WIDTH / 2 : Nat) : Int))
  let y := wrapInt (wrapInt (toInt i + (fi : Int)) - ((FILTER_HEIGHT / 2 : Nat) : Int))
  if 0 ≤ x ∧ 0 ≤ y ∧ toULong x < w ∧ toULong y < h then
    let pixel := image ((toULong y * w + toULong x) % ULONG)
    { red := acc.red + (pixel.r.val : Int) * laplacianAt fi fj
      green := acc.green + (pixel.g.val : Int) * laplacianAt fi fj
      blue := acc.blue + (pixel.b.val : Int) * laplacianAt fi fj }
  else acc

/-- The unbounded-integer accumulators after the first `n` additions. -/
def accExact (image : Buffer) (w h i j n : Nat) : Acc :=
  (tapOrder.take n).foldl (fun a t => tapExact image w h i j t.1 t.2 a) ⟨0, 0, 0⟩

/-- The accumulators lie between `-lo` and `hi`. -/
def Acc.Between (lo hi : Int) (a : Acc) : Prop :=
  (-lo ≤ a.red ∧ a.red ≤ hi) ∧ (-lo ≤ a.green ∧ a.green ≤ hi) ∧ (-lo ≤ a.blue ∧ a.blue ≤ hi)

/-- The value lies in the range of `int`. -/
def inIntRange (v : Int) : Prop := -2 ^ 31 ≤ v ∧ v < 2 ^ 31

/-- The accumulators after one tap that reads `image` at offset `r`, or reads nothing. -/
def accumulate (image : Buffer) (fi fj : Nat) (acc : Acc) : Option Nat → Acc
  | none => acc
  | some k =>
    { red := wrapInt (acc.red + wrapInt (((image k).r.val : Int) * laplacianAt fi fj))
      green := wrapInt (acc.green + wrapInt (((image k).g.val : Int) * laplacianAt fi fj))
      blue := wrapInt (acc.blue + wrapInt (((image k).b.val : Int) * laplacianAt fi fj)) }

/-! ## Image files: `write_image` and `read_image` -/

/-- A byte of a file or of a C string. -/
abbrev Byte := Fin 256

/-- The C library `isspace` in the C locale: space, `\t`, `\n`, `\v`, `\f`, `\r`. -/
def isspace (c : Byte) : Bool := c.val = 32 || (9 ≤ c.val && c.val ≤ 13)

/-- The C library `isdigit`. -/
def isdigit (c : Byte) : Bool := 48 ≤ c.val && c.val ≤ 57

/-- The character of the decimal digit `d`. -/
def digitChar (d : Nat) : Byte := Fin.ofNat (48 + d % 10)

/-- The decimal digits of `n`, most significant first; the first argument bounds the
number of digits. -/
def decimalFuel : Nat → Nat → List Byte
  | 0, _ => []
  | fuel + 1, n =>
    if n < 10 then [digitChar n] else decimalFuel fuel (n / 10) ++ [digitChar (n % 10)]

/-- What `printf` emits for `%lu`, and for `%d` of a value that is not negative. -/
def decimal (n : Nat) : List Byte := decimalFuel (n + 1) n

/-- The bytes of a buffer of pixels, as `fwrite` emits them. -/
def pixelsBytes : List PPMPixel → List Byte
  | [] => []
  | p :: ps => p.r :: p.g :: p.b :: pixelsBytes ps

/-- The first `count` pixels of a buffer. -/
def bufferPixels (image : Buffer) (count : Nat) : List PPMPixel := (List.range count).map image

/-- The header `"P6\n%lu %lu\n255\n"` printed by `write_image`. -/
def write_header (width height : Nat) : List Byte :=
  [80, 54, 10] ++ decimal width ++ [32] ++ decimal height ++ [10, 50, 53, 53, 10]

/-- What `write_image` takes from its environment. -/
structure WriteEnv where
  /-- Whether `fopen` succeeds. -/
  fopen : Bool
  /-- The number of items `fwrite` manages to write, when fewer than asked. -/
  fwrite : Nat

/-- The function `write_image`: the contents of the file it leaves, `none` when the file
cannot be opened. -/
def write_image (image : Buffer) (width height : Nat) (env : WriteEnv) : Option (List Byte) :=
  if env.fopen then
    some (write_header width height ++
      pixelsBytes (bufferPixels image (min env.fwrite ((width * height) % ULONG))))
  else none

/-- The conversion `fscanf(fp, "%2s", header)`: white space is skipped, then at most two
bytes that are not white space are stored; `none` at the end of the file. The result is
the bytes stored and the rest of the stream. -/
def scanTag (s : List Byte) : Option (List Byte × List Byte) :=
  match s.dropWhile isspace with
  | [] => none
  | a :: [] => some ([a], [])
  | a :: b :: t => if isspace b then some ([a], b :: t) else some ([a, b], t)

/-- The loop `while (isspace(c = fgetc(fp)));`: the value of `c` (`none` for `EOF`) and
the rest of the stream. -/
def skipSpaceGet : List Byte → Option Byte × List Byte
  | [] => (none, [])
  | c :: s => if isspace c then skipSpaceGet s else (some c, s)

/-- The loop `while ((c = fgetc(fp)) != '\n' && c != EOF);`. -/
def skipLine : List Byte → Option Byte × List Byte
  | [] => (none, [])
  | c :: s => if c.val = 10 then (some c, s) else skipLine s

/-- The `do ... while (c != EOF)` loop that skips white space and comment lines; the
first argument bounds the number of iterations. -/
def skipCommentsFuel : Nat → List Byte → List Byte
  | 0, s => s
  | fuel + 1, s =>
    if (skipSpaceGet s).1 = some 35 then
      if (skipLine (skipSpaceGet s).2).1 = none then (skipLine (skipSpaceGet s).2).2
      else skipCommentsFuel fuel (skipLine (skipSpaceGet s).2).2
    else
      match (skipSpaceGet s).1 with
      | none => (skipSpaceGet s).2
      | some c => c :: (skipSpaceGet s).2

/-- The comment-skipping loop of `read_image`; each iteration consumes a byte, so the
length of the stream bounds the iterations. -/
def skipComments (s : List Byte) : List Byte := skipCommentsFuel (s.length + 1) s

/-- The decimal value of the digits at the head of the stream, and the rest of it. -/
def scanDigits : List Byte → Nat → Nat × List Byte
  | [], acc => (acc, [])
  | c :: s, acc => if isdigit c then scanDigits s (acc * 10 + (c.val - 48)) else (acc, c :: s)

/-- The stream after an optional sign. -/
def afterSign : List Byte → List Byte
  | [] => []
  | c :: t => if c.val = 45 ∨ c.val = 43 then t else c :: t

/-- Whether the stream begins with a minus sign. -/
def hasMinus : List Byte → Bool
  | [] => false
  | c :: _ => c.val = 45

/-- Whether the stream begins with a digit. -/
def startsWithDigit : List Byte → Bool
  | [] => false
  | c :: _ => isdigit c

/-- The conversion `%lu` of `fscanf`: white space is skipped, an optional sign and at
least one digit are read; the value is that of `strtoul`, `ULONG_MAX` when the digits
exceed it and negated modulo `2 ^ 64` after a minus sign. `none` is a matching failure. -/
def scanULong (s : List Byte) : Option (Nat × List Byte) :=
  if startsWithDigit (afterSign (s.dropWhile isspace)) then
    some
      (if ULONG ≤ (scanDigits (afterSign (s.dropWhile isspace)) 0).1 then ULONG - 1
        else if hasMinus (s.dropWhile isspace) then
          (ULONG - (scanDigits (afterSign (s.dropWhile isspace)) 0).1) % ULONG
        else (scanDigits (afterSign (s.dropWhile isspace)) 0).1,
       (scanDigits (afterSign (s.dropWhile isspace)) 0).2)
  else none

/-- The conversion `%u` of `fscanf`: the value of `%lu` stored in an `unsigned int`. -/
def scanUInt (s : List Byte) : Option (Nat × List Byte) :=
  (scanULong s).map fun r => (r.1 % 2 ^ 32, r.2)

/-- The call `fread(img, sizeof(PPMPixel), count, fp)` when it reads `count` pixels;
`none` when the stream ends before. -/
def readPixels : Nat → List Byte → Option (List PPMPixel)
  | 0, _ => some []
  | n + 1, r :: g :: b :: s => (readPixels n s).map fun ps => ⟨r, g, b⟩ :: ps
  | _ + 1, _ => none

/-- The test `fgetc(fp) != '\n'` after the maximum colour value: the stream after the
newline, `none` when the next byte is not a newline or the file ends. -/
def afterNewline : List Byte → Option (List Byte)
  | [] => none
  | c :: s => if c.val = 10 then some s else none

/-- The header part of `read_image`, up to and including the byte after the maximum
colour value: the width, the height and the stream positioned at the pixel data. -/
def readHeader (s0 : List Byte) : Option (Nat × Nat × List Byte) :=
  (scanTag s0).bind fun tag =>
    if tag.1 = [80, 54] then
      (scanULong (skipComments tag.2)).bind fun width =>
        (scanULong (width.2.dropWhile isspace)).bind fun height =>
          (scanUInt (height.2.dropWhile isspace)).bind fun maxval =>
            if maxval.1 = 255 then
              (afterNewline maxval.2).map fun s => (width.1, height.1, s)
            else none
    else none

/-- The function `read_image`: the width, the height and the pixels, `none` for the
`NULL` return. `file` is the contents of the file, `none` when it cannot be opened;
`mallocOk` tells whether `malloc` returns a block (the source passes its result to
`fread` unchecked, which is modelled as no image). -/
def read_image (file : Option (List Byte)) (mallocOk : Bool) :
    Option (Nat × Nat × List PPMPixel) :=
  file.bind fun s0 =>
    (readHeader s0).bind fun hd =>
      if mallocOk then
        (readPixels ((hd.1 * hd.2.1) % ULONG) hd.2.2).map fun px => (hd.1, hd.2.1, px)
      else none

/-- An item of the header between the tag and the width: a white-space byte or a
comment line, given by the bytes between its `#` and its newline. -/
inductive GapItem where
  | space (c : Byte)
  | comment (body : List Byte)

/-- A white-space item is a white-space byte; a comment has no newline before its end. -/
def GapItem.ok : GapItem → Prop
  | .space c => isspace c = true
  | .comment body => ∀ b, b ∈ body → b.val ≠ 10

/-- The bytes of the header items, comment lines included. -/
def renderGap : List GapItem → List Byte
  | [] => []
  | .space c :: rest => c :: renderGap rest
  | .comment body :: rest => 35 :: (body ++ 10 :: renderGap rest)

/-- The bytes of the header items with the comment lines left out. -/
def renderSpaces : List GapItem → List Byte
  | [] => []
  | .space c :: rest => c :: renderSpaces rest
  | .comment _ :: rest => renderSpaces rest

/-! ## File jobs: `manage_image_file` and `main` -/

/-- The buffer behind the pointer returned by `read_image`. -/
def toBuffer (pixels : List PPMPixel) : Buffer := fun k => pixels.getD k black

/-- What one call of `manage_image_file` takes from its environment. The type `α` stands
for `double`; `elapsed` is the value `apply_filters` stores in `*elapsedTime`. -/
structure JobEnv (α : Type) where
  /-- The contents of the input file, `none` when it cannot be opened. -/
  input : Option (List Byte)
  /-- Whether the `malloc` of `read_image` returns a block. -/
  readMalloc : Bool
  /-- The environment of `apply_filters`. -/
  filter : Env
  /-- The elapsed time measured by `apply_filters`. -/
  elapsed : α
  /-- The environment of `write_image`. -/
  output : WriteEnv

/-- The calls `read_image` and `apply_filters` of `manage_image_file`: the width, the
height and the filtered buffer, `none` when either call returns `NULL`. -/
def JobEnv.filtered {α : Type} (job : JobEnv α) : Option (Nat × Nat × Buffer) :=
  (read_image job.input job.readMalloc).bind fun img =>
    (apply_filters (toBuffer img.2.2) img.1 img.2.1 job.filter).map fun res =>
      (img.1, img.2.1, res)

/-- The rest of `manage_image_file` after the two calls: on `NULL` it returns at once;
otherwise it adds the elapsed time to the total under the mutex and writes the image. -/
def finishJob {α : Type} [Add α] (job : JobEnv α) (total : α) :
    Option (Nat × Nat × Buffer) → α × Option (List Byte)
  | none => (total, none)
  | some r => (total + job.elapsed, write_image r.2.2 r.1 r.2.1 job.output)

/-- The function `manage_image_file` as a whole: from the value of `total_elapsed_time`
to its new value and the contents of the output file, if one is written. -/
def manage_image_file {α : Type} [Add α] (job : JobEnv α) (total : α) :
    α × Option (List Byte) :=
  finishJob job total job.filtered

/-- The value of `total_elapsed_time` after the jobs, in the order in which they take
the mutex. -/
def runJobs {α : Type} [Add α] (jobs : List (JobEnv α)) (total : α) : α :=
  jobs.foldl (fun t job => (manage_image_file job t).1) total

/-- The bytes that follow the array `output_file_name` inside an element of `args`: with
8-byte pointers (the data model in which `unsigned long` has 64 bits) the struct is
aligned to 8 bytes, so after the 8 bytes of the pointer and the 20 of the array it is
padded to 32 bytes. -/
def STRUCT_PADDING : Nat := 4

/-- The struct `file_name_args` as an element of the array `args`: the string that
`input_file_name` points to, the 20 bytes of `output_file_name` and the padding bytes
after them. -/
structure file_name_args where
  input_file_name : List Byte
  output_file_name : List Byte
  padding : List Byte

/-- An element of the variable-length array `args` before the loop of `main` fills it:
`main` does not initialise the array, so its bytes are whatever `garbage` holds. -/
def freshArgs (garbage : Nat → Byte) : file_name_args :=
  { input_file_name := []
    output_file_name := (List.range 20).map garbage
    padding := (List.range STRUCT_PADDING).map fun k => garbage (20 + k) }

/-- The string `"laplacian%d.ppm"` formatted for `i`. -/
def outputName (i : Nat) : List Byte :=
  [108, 97, 112, 108, 97, 99, 105, 97, 110] ++ decimal i ++ [46, 112, 112, 109]

/-- The bytes `src` stored from the start of the memory `dst` on. -/
def storeBytes (src dst : List Byte) : List Byte := src ++ dst.drop src.length

/-- The call `sprintf(args[i - 1].output_file_name, "laplacian%d.ppm", i)`: the name and
its terminating zero byte are stored from the start of the array on, the bytes past the
twentieth in the padding of the element; `none` when they would reach past the element. -/
def sprintf_output (i : Nat) (a : file_name_args) : Option file_name_args :=
  if (outputName i).length + 1 ≤ (a.output_file_name ++ a.padding).length then
    some
      { input_file_name := a.input_file_name
        output_file_name :=
          (storeBytes (outputName i ++ [0]) (a.output_file_name ++ a.padding)).take
            a.output_file_name.length
        padding :=
          (storeBytes (outputName i ++ [0]) (a.output_file_name ++ a.padding)).drop
            a.output_file_name.length }
  else none

/-- The string at a pointer to the memory `mem`: the bytes before the first zero byte. -/
def cString (mem : List Byte) : List Byte := mem.takeWhile fun b => b != 0

/-- The string a file job finds at `fileArgs->output_file_name` and hands to
`write_image`: the bytes from the start of the array up to the first zero byte. -/
def file_name_args.outputString (a : file_name_args) : List Byte :=
  cString (a.output_file_name ++ a.padding)

/-- The entries of `args` filled by the loop `for (i = 1; i < argc; i++)` of `main`,
entered at `i`, for the remaining arguments; `garbage i` is what the element for `i`
holds before. -/
def mainArgs (garbage : Nat → Nat → Byte) : Nat → List (List Byte) → Option (List file_name_args)
  | _, [] => some []
  | i, path :: rest =>
    (sprintf_output i { freshArgs (garbage i) with input_file_name := path }).bind fun a =>
      (mainArgs garbage (i + 1) rest).map fun l => a :: l

/-! ## The threads of `main` and the mutex -/

/-- The program points of `manage_image_file` around the update of the total. -/
inductive Pc where
  /-- Before `pthread_mutex_lock`: reading and filtering the image. -/
  | work
  /-- At `pthread_mutex_lock`. -/
  | lock
  /-- Holding the mutex, before reading `total_elapsed_time`. -/
  | load
  /-- Holding the mutex, before writing the sum to `total_elapsed_time`. -/
  | store
  /-- At `pthread_mutex_unlock`. -/
  | unlock
  /-- After the unlock, or after a failed read or filter. -/
  | done
  deriving DecidableEq, Repr

/-- The state shared by the threads: `total_elapsed_time`, the holder of
`mutex_total_time`, and per thread its program point and the value it has read. -/
structure Shared (α : Type) where
  total : α
  mutex : Option Nat
  pc : Nat → Pc
  tmp : Nat → α

/-- The function `f` changed at `t`. -/
def setAt {β : Type} (f : Nat → β) (t : Nat) (v : β) : Nat → β :=
  fun u => if u = t then v else f u

/-- One step of thread `t`; a thread that cannot move (blocked on the mutex, or done)
leaves the state as it is. `ok t` tells whether the thread's image is read and filtered,
`elapsed t` is its elapsed time. -/
def step {α : Type} [Add α] (ok : Nat → Bool) (elapsed : Nat → α) (t : Nat) (s : Shared α) :
    Shared α :=
  match s.pc t with
  | .work => { s with pc := setAt s.pc t (if ok t then .lock else .done) }
  | .lock =>
    match s.mutex with
    | none => { s with mutex := some t, pc := setAt s.pc t .load }
    | some _ => s
  | .load => { s with tmp := setAt s.tmp t s.total, pc := setAt s.pc t .store }
  | .store => { s with total := s.tmp t + elapsed t, pc := setAt s.pc t .unlock }
  | .unlock => { s with mutex := none, pc := setAt s.pc t .done }
  | .done => s

/-- The state after the steps of a schedule, an interleaving of the threads. -/
def runSchedule {α : Type} [Add α] (ok : Nat → Bool) (elapsed : Nat → α) (sched : List Nat)
    (s : Shared α) : Shared α :=
  sched.foldl (fun st t => step ok elapsed t st) s

/-- The state in which `main` has created `n` threads: the total is `t0`, the mutex is
free and every thread is before its lock. -/
def startState {α : Type} (n : Nat) (t0 : α) : Shared α :=
  { total := t0, mutex := none, pc := fun t => if t < n then .work else .done, tmp := fun _ => t0 }

/-- Thread `t` is between its lock and its unlock. -/
def inCritical {α : Type} (s : Shared α) (t : Nat) : Prop :=
  s.pc t = .load ∨ s.pc t = .store ∨ s.pc t = .unlock

/-- The invariant of the mutex: its holder is the thread in the critical section, and a
thread about to store has read the current total. -/
def MutexInv {α : Type} (s : Shared α) : Prop :=
  (∀ t, s.mutex = some t ↔ inCritical s t) ∧ (∀ t, s.pc t = .store → s.tmp t = s.total)

/-- The position of a program point in the straight-line code of `manage_image_file`. -/
def Pc.rank : Pc → Nat
  | .work => 0
  | .lock => 1
  | .load => 2
  | .store => 3
  | .unlock => 4
  | .done => 5

/-- The threads that execute the store of `total_elapsed_time += elapsedTime` during a
schedule entered in state `s`, in the order of their stores. -/
def storeOrder {α : Type} [Add α] (ok : Nat → Bool) (elapsed : Nat → α) :
    List Nat → Shared α → List Nat
  | [], _ => []
  | t :: rest, s =>
    (if s.pc t = .store then [t] else []) ++ storeOrder ok elapsed rest (step ok elapsed t s)

/-! ## The loops of the worker -/

theorem ULONG_eq : ULONG = 18446744073709551616 := by decide

theorem range3 : List.range 3 = [0, 1, 2] := by decide

theorem row_offsets (w i k : Nat) :
    (i * w ≤ k ∧ k < i * w + w) ↔ (0 < w ∧ k / w = i) := by
  constructor
  · rintro ⟨h1, h2⟩
    have hw : 0 < w := by
      rcases Nat.eq_zero_or_pos w with h0 | h0
      · subst h0; omega
      · exact h0
    refine ⟨hw, ?_⟩
    have a : i ≤ k / w := (Nat.le_div_iff_mul_le hw).2 h1
    have b : k / w < i + 1 := (Nat.div_lt_iff_lt_mul hw).2 (by rw [Nat.add_mul]; omega)
    omega
  · rintro ⟨hw, rfl⟩
    have a := Nat.div_add_mod k w
    have b := Nat.mod_lt k hw
    have c : k / w * w = w * (k / w) := Nat.mul_comm _ _
    omega

theorem row_offset_col (w k : Nat) : k - k / w * w = k % w := by
  have a := Nat.div_add_mod k w
  have c : k / w * w = w * (k / w) := Nat.mul_comm _ _
  omega

theorem colLoop_apply (image : Buffer) (w h i : Nat) (hw : w < ULONG)
    (hrow : i * w + w ≤ ULONG) (k : Nat) :
    ∀ (fuel j : Nat) (result : Buffer), w ≤ j + fuel →
      colLoop image w h i fuel j result k =
        if i * w + j ≤ k ∧ k < i * w + w then computePixel image w h i (k - i * w)
        else result k := by
  intro fuel
  induction fuel with
  | zero =>
    intro j result hj
    have : ¬ (i * w + j ≤ k ∧ k < i * w + w) := by omega
    simp [colLoop, this]
  | succ n ih =>
    intro j result hj
    unfold colLoop
    by_cases hjw : j < w
    · have e1 : (j + 1) % ULONG = j + 1 := Nat.mod_eq_of_lt (by omega)
      have e2 : (i * w + j) % ULONG = i * w + j := Nat.mod_eq_of_lt (by omega)
      rw [if_pos hjw, e1, e2, ih (j + 1) _ (by omega)]
      by_cases hk : k = i * w + j
      · subst hk
        have n1 : ¬ (i * w + (j + 1) ≤ i * w + j ∧ i * w + j < i * w + w) := by omega
        have n2 : i * w + j ≤ i * w + j ∧ i * w + j < i * w + w := by omega
        rw [if_neg n1, if_pos n2]
        simp [writePixel]
      · by_cases hin : i * w + (j + 1) ≤ k ∧ k < i * w + w
        · have n2 : i * w + j ≤ k ∧ k < i * w + w := by omega
          rw [if_pos hin, if_pos n2]
        · have n2 : ¬ (i * w + j ≤ k ∧ k < i * w + w) := by omega
          rw [if_neg hin, if_neg n2]
          simp [writePixel, hk]
    · have : ¬ (i * w + j ≤ k ∧ k < i * w + w) := by omega
      rw [if_neg hjw, if_neg this]

theorem rowLoop_apply (image : Buffer) (p : parameter) (hh : p.h < ULONG)
    (hwh : p.w * p.h < ULONG) (k : Nat) :
    ∀ (fuel i : Nat) (result : Buffer), p.h ≤ i + fuel →
      rowLoop image p fuel i result k =
        if 0 < p.w ∧ i ≤ k / p.w ∧ k / p.w < (p.start + p.size) % ULONG ∧ k / p.w < p.h then
          computePixel image p.w p.h (k / p.w) (k % p.w)
        else result k := by
  intro fuel
  induction fuel with
  | zero =>
    intro i result hi
    have : ¬ (0 < p.w ∧ i ≤ k / p.w ∧ k / p.w < (p.start + p.size) % ULONG ∧ k / p.w < p.h) := by
      omega
    simp [rowLoop, this]
  | succ n ih =>
    intro i result hi
    unfold rowLoop
    by_cases hc : i < (p.start + p.size) % ULONG ∧ i < p.h
    · have e1 : (i + 1) % ULONG = i + 1 := Nat.mod_eq_of_lt (by omega)
      have hmul : (i + 1) * p.w ≤ p.h * p.w := Nat.mul_le_mul_right _ (by omega)
      have hcomm : p.h * p.w = p.w * p.h := Nat.mul_comm _ _
      have hexp : (i + 1) * p.w = i * p.w + p.w := by rw [Nat.add_mul, Nat.one_mul]
      have hpos : 0 < p.h := by omega
      have hw : p.w < ULONG := by
        have : p.w * 1 ≤ p.w * p.h := Nat.mul_le_mul_left _ hpos
        omega
      rw [if_pos hc, e1, ih (i + 1) _ (by omega),
        colLoop_apply image p.w p.h i hw (by omega) k p.w 0 result (by omega)]
      have key := row_offsets p.w i k
      have col := row_offset_col p.w k
      by_cases hrow : 0 < p.w ∧ k / p.w = i
      · have a : i * p.w + 0 ≤ k ∧ k < i * p.w + p.w := by
          have := key.2 hrow; omega
        have n1 : ¬ (0 < p.w ∧ i + 1 ≤ k / p.w ∧ k / p.w < (p.start + p.size) % ULONG ∧
            k / p.w < p.h) := by omega
        have n2 : 0 < p.w ∧ i ≤ k / p.w ∧ k / p.w < (p.start + p.size) % ULONG ∧
            k / p.w < p.h := by omega
        rw [if_neg n1, if_pos a, if_pos n2]
        obtain ⟨_, rfl⟩ := hrow
        rw [col]
      · have a : ¬ (i * p.w + 0 ≤ k ∧ k < i * p.w + p.w) := by
          intro hcon
          exact hrow (key.1 (by omega))
        rw [if_neg a]
        by_cases hin : 0 < p.w ∧ i + 1 ≤ k / p.w ∧ k / p.w < (p.start + p.size) % ULONG ∧
            k / p.w < p.h
        · have n2 : 0 < p.w ∧ i ≤ k / p.w ∧ k / p.w < (p.start + p.size) % ULONG ∧
              k / p.w < p.h := by omega
          rw [if_pos hin, if_pos n2]
        · have n2 : ¬ (0 < p.w ∧ i ≤ k / p.w ∧ k / p.w < (p.start + p.size) % ULONG ∧
              k / p.w < p.h) := by
            intro hcon
            apply hin
            refine ⟨hcon.1, ?_, hcon.2.2.1, hcon.2.2.2⟩
            rcases Nat.lt_or_ge i (k / p.w) with hlt | hge
            · exact hlt
            · exact absurd ⟨hcon.1, by omega⟩ hrow
          rw [if_neg hin, if_neg n2]
    · have : ¬ (0 < p.w ∧ i ≤ k / p.w ∧ k / p.w < (p.start + p.size) % ULONG ∧
          k / p.w < p.h) := by omega
      rw [if_neg hc, if_neg this]

/-- The contents of the output buffer after one worker: the computed pixel inside the
worker's slice, the previous contents everywhere else. -/
theorem threadfn_apply (image : Buffer) (p : parameter) (result : Buffer) (hh : p.h < ULONG)
    (hwh : p.w * p.h < ULONG) (k : Nat) :
    compute_laplacian_threadfn image p result k =
      if inSlice p k then computePixel image p.w p.h (k / p.w) (k % p.w) else result k := by
  unfold compute_laplacian_threadfn inSlice
  exact rowLoop_apply image p hh hwh k (p.h - p.start) p.start result (by omega)

/-! ## The partition of `apply_filters` -/

theorem workerStart_eq (h i : Nat) (hh : h < ULONG) (hi : i < LAPLACIAN_THREADS) :
    workerStart h i = i * (h / 4) := by
  unfold workerStart work
  apply Nat.mod_eq_of_lt
  rw [ULONG_eq] at *
  unfold LAPLACIAN_THREADS at *
  interval_cases i <;> omega

theorem workerSize_eq (h i : Nat) (hi : i < LAPLACIAN_THREADS - 1) :
    workerSize h i = h / 4 := by
  unfold workerSize work
  unfold LAPLACIAN_THREADS at *
  rw [if_neg (by omega)]

theorem workerSize_last (h : Nat) (hh : h < ULONG) :
    workerSize h 3 = h - 3 * (h / 4) ∧ 3 * (h / 4) ≤ h := by
  unfold workerSize work
  rw [ULONG_eq] at *
  unfold LAPLACIAN_THREADS
  simp only [Nat.add_one_sub_one, if_true]
  omega

theorem slice_end (h i : Nat) (hh : h < ULONG) (hi : i < LAPLACIAN_THREADS) :
    (workerStart h i + workerSize h i) % ULONG = workerStart h i + workerSize h i ∧
      workerStart h i + workerSize h i ≤ h := by
  have hs := workerStart_eq h i hh hi
  have hl := workerSize_last h hh
  have hlt : workerStart h i + workerSize h i ≤ h := by
    unfold LAPLACIAN_THREADS at hi
    rcases Nat.lt_or_ge i 3 with h3 | h3
    · have := workerSize_eq h i (by unfold LAPLACIAN_THREADS; omega)
      rw [hs, this]
      interval_cases i <;> omega
    · have : i = 3 := by omega
      subst this
      rw [hs]; omega
  exact ⟨Nat.mod_eq_of_lt (by omega), hlt⟩

theorem inSlice_params (w h i k : Nat) (hh : h < ULONG) (hi : i < LAPLACIAN_THREADS) :
    inSlice (params w h i) k ↔
      (0 < w ∧ workerStart h i ≤ k / w ∧ k / w < workerStart h i + workerSize h i) := by
  have he := slice_end h i hh hi
  unfold inSlice params
  simp only
  rw [he.1]
  constructor
  · rintro ⟨a, b, c, _⟩; exact ⟨a, b, c⟩
  · rintro ⟨a, b, c⟩; exact ⟨a, b, c, by omega⟩

theorem rows_cover (h r : Nat) (hh : h < ULONG) :
    (∃ i, i ∈ List.range LAPLACIAN_THREADS ∧
      workerStart h i ≤ r ∧ r < workerStart h i + workerSize h i) ↔ r < h := by
  have s0 := workerStart_eq h 0 hh (by decide)
  have s1 := workerStart_eq h 1 hh (by decide)
  have s2 := workerStart_eq h 2 hh (by decide)
  have s3 := workerStart_eq h 3 hh (by decide)
  have z0 := workerSize_eq h 0 (by decide)
  have z1 := workerSize_eq h 1 (by decide)
  have z2 := workerSize_eq h 2 (by decide)
  have z3 := workerSize_last h hh
  constructor
  · rintro ⟨i, hi, hin⟩
    have hi4 : i < 4 := by simpa [LAPLACIAN_THREADS] using hi
    have hcase : i = 0 ∨ i = 1 ∨ i = 2 ∨ i = 3 := by omega
    rcases hcase with rfl | rfl | rfl | rfl <;> omega
  · intro hrow
    by_cases c0 : r < h / 4
    · exact ⟨0, by decide, by omega⟩
    · by_cases c1 : r < 2 * (h / 4)
      · exact ⟨1, by decide, by omega⟩
      · by_cases c2 : r < 3 * (h / 4)
        · exact ⟨2, by decide, by omega⟩
        · exact ⟨3, by decide, by omega⟩

theorem slices_cover (w h k : Nat) (hh : h < ULONG) :
    (∃ i, i ∈ List.range LAPLACIAN_THREADS ∧ inSlice (params w h i) k) ↔ k < w * h := by
  have hdiv : 0 < w → (k / w < h ↔ k < w * h) := by
    intro hw
    rw [Nat.div_lt_iff_lt_mul hw, Nat.mul_comm]
  have hmem : ∀ i, i ∈ List.range LAPLACIAN_THREADS → i < LAPLACIAN_THREADS := by
    intro i hi; simpa using hi
  constructor
  · rintro ⟨i, hi, hin⟩
    have hs := (inSlice_params w h i k hh (hmem i hi)).1 hin
    exact (hdiv hs.1).1 ((rows_cover h (k / w) hh).1 ⟨i, hi, hs.2⟩)
  · intro hk
    have hw : 0 < w := by
      rcases Nat.eq_zero_or_pos w with h0 | h0
      · subst h0; simp at hk
      · exact h0
    obtain ⟨i, hi, hs⟩ := (rows_cover h (k / w) hh).2 ((hdiv hw).2 hk)
    exact ⟨i, hi, (inSlice_params w h i k hh (hmem i hi)).2 ⟨hw, hs⟩⟩

/-- The contents of the output buffer after the workers of `order` have run. -/
theorem runWorkers_apply (image : Buffer) (w h : Nat) (hh : h < ULONG) (hwh : w * h < ULONG)
    (k : Nat) :
    ∀ (order : List Nat) (result : Buffer),
      runWorkers image w h order result k =
        if ∃ i, i ∈ order ∧ inSlice (params w h i) k then
          computePixel image w h (k / w) (k % w)
        else result k := by
  intro order
  induction order with
  | nil => intro result; simp [runWorkers]
  | cons i rest ih =>
    intro result
    have step : runWorkers image w h (i :: rest) result =
        runWorkers image w h rest (compute_laplacian_threadfn image (params w h i) result) := rfl
    rw [step, ih, threadfn_apply image (params w h i) result hh hwh k]
    by_cases hr : ∃ i', i' ∈ rest ∧ inSlice (params w h i') k
    · have : ∃ i', i' ∈ i :: rest ∧ inSlice (params w h i') k := by
        obtain ⟨a, ha, hb⟩ := hr
        exact ⟨a, List.mem_cons_of_mem _ ha, hb⟩
      rw [if_pos hr, if_pos this]
    · rw [if_neg hr]
      by_cases hi : inSlice (params w h i) k
      · have : ∃ i', i' ∈ i :: rest ∧ inSlice (params w h i') k :=
          ⟨i, List.mem_cons_self _ _, hi⟩
        rw [if_pos hi, if_pos this]
        rfl
      · have : ¬ ∃ i', i' ∈ i :: rest ∧ inSlice (params w h i') k := by
          rintro ⟨a, ha, hb⟩
          rcases List.mem_cons.1 ha with rfl | ha
          · exact hi hb
          · exact hr ⟨a, ha, hb⟩
        rw [if_neg hi, if_neg this]

/-- The contents of the output buffer once the four workers have run, in any order. -/
theorem runWorkers_perm_apply (image : Buffer) (w h : Nat) (hh : h < ULONG)
    (hwh : w * h < ULONG) (order : List Nat)
    (hperm : List.Perm order (List.range LAPLACIAN_THREADS)) (result : Buffer) (k : Nat) :
    runWorkers image w h order result k =
      if k < w * h then computePixel image w h (k / w) (k % w) else result k := by
  rw [runWorkers_apply image w h hh hwh k order result]
  have hiff : (∃ i, i ∈ order ∧ inSlice (params w h i) k) ↔ k < w * h := by
    rw [← slices_cover w h k hh]
    constructor
    · rintro ⟨i, hi, hs⟩; exact ⟨i, (hperm.mem_iff).1 hi, hs⟩
    · rintro ⟨i, hi, hs⟩; exact ⟨i, (hperm.mem_iff).2 hi, hs⟩
  by_cases hk : k < w * h
  · rw [if_pos (hiff.2 hk), if_pos hk]
  · rw [if_neg (fun hc => hk (hiff.1 hc)), if_neg hk]

/-! ## The value computed for one pixel -/

theorem half_filter : ((FILTER_WIDTH / 2 : Nat) : Int) = 1 ∧ ((FILTER_HEIGHT / 2 : Nat) : Int) = 1 := by
  decide

/-- The `int` coordinate of a tap is the exact coordinate, and the bounds test of the source
agrees with membership in `[0, n)`, when the dimension is at most `2 ^ 31`. -/
theorem coord_exact (c f n : Nat) (hc : c < n) (hn : n ≤ 2 ^ 31) (hf : f < 3) :
    ((0 ≤ wrapInt (wrapInt (toInt c + (f : Int)) - 1) ∧
        toULong (wrapInt (wrapInt (toInt c + (f : Int)) - 1)) < n) ↔
      (1 ≤ c + f ∧ c + f - 1 < n)) ∧
    (1 ≤ c + f → c + f - 1 < n →
      toULong (wrapInt (wrapInt (toInt c + (f : Int)) - 1)) = c + f - 1) := by
  unfold toULong toInt wrapInt
  constructor
  · constructor
    · rintro ⟨h1, h2⟩; omega
    · rintro ⟨h1, h2⟩; omega
  · intro h1 h2; omega

theorem laplacianAt_eq_kernel (fi fj : Nat) (hfi : fi < 3) (hfj : fj < 3) :
    laplacianAt fi fj = kernel fi fj := by
  interval_cases fi <;> interval_cases fj <;> decide

theorem kernel_cases (fi fj : Nat) : kernel fi fj = 8 ∨ kernel fi fj = -1 := by
  unfold kernel
  by_cases hc : fi = 1 ∧ fj = 1
  · left; rw [if_pos hc]
  · right; rw [if_neg hc]

theorem wrap_add_term (a m : Int) (v : Nat) (c : Int) (hv : v < 256) (hc : c = 8 ∨ c = -1)
    (hm : m ≤ 2 ^ 30) (ha : -m ≤ a ∧ a ≤ m) :
    wrapInt (a + wrapInt ((v : Int) * c)) = a + c * (v : Int) ∧
      (-(m + 2040) ≤ a + c * (v : Int) ∧ a + c * (v : Int) ≤ m + 2040) := by
  unfold wrapInt
  rcases hc with rfl | rfl
  · constructor
    · omega
    · omega
  · constructor
    · omega
    · omega

theorem paddedTerm_bounds (chan : PPMPixel → Fin 256) (image : Buffer) (w h x y fi fj : Nat) :
    -2040 ≤ paddedTerm chan image w h x y fi fj ∧ paddedTerm chan image w h x y fi fj ≤ 2040 := by
  unfold paddedTerm
  split
  · have hv := (chan (image ((y + fi - 1) * w + (x + fj - 1)))).isLt
    rcases kernel_cases fi fj with hk | hk <;> rw [hk] <;> omega
  · omega

/-- One tap of the source adds the zero-padded term of the specification to each
accumulator, when both dimensions are at most `2 ^ 31`. -/
theorem tap_padded (image : Buffer) (w h i j fi fj : Nat) (hi : i < h) (hj : j < w)
    (hw : w ≤ 2 ^ 31) (hh : h ≤ 2 ^ 31) (hfi : fi < 3) (hfj : fj < 3)
    (acc : Acc) (m : Int) (hm : m ≤ 2 ^ 30) (hacc : acc.Within m) :
    tap image w h i j fi fj acc =
        ⟨acc.red + paddedTerm PPMPixel.r image w h j i fi fj,
         acc.green + paddedTerm PPMPixel.g image w h j i fi fj,
         acc.blue + paddedTerm PPMPixel.b image w h j i fi fj⟩ ∧
      (tap image w h i j fi fj acc).Within (m + 2040) := by
  obtain ⟨cx, ex⟩ := coord_exact j fj w hj hw hfj
  obtain ⟨cy, ey⟩ := coord_exact i fi h hi hh hfi
  obtain ⟨hr, hg, hb⟩ := hacc
  have hm0 : 0 ≤ m := by omega
  unfold tap
  rw [half_filter.1, half_filter.2]
  by_cases hc : 1 ≤ j + fj ∧ j + fj - 1 < w ∧ 1 ≤ i + fi ∧ i + fi - 1 < h
  · have hcode : 0 ≤ wrapInt (wrapInt (toInt j + (fj : Int)) - 1) ∧
        0 ≤ wrapInt (wrapInt (toInt i + (fi : Int)) - 1) ∧
        toULong (wrapInt (wrapInt (toInt j + (fj : Int)) - 1)) < w ∧
        toULong (wrapInt (wrapInt (toInt i + (fi : Int)) - 1)) < h := by
      have a := cx.2 ⟨hc.1, hc.2.1⟩
      have b := cy.2 ⟨hc.2.2.1, hc.2.2.2⟩
      exact ⟨a.1, b.1, a.2, b.2⟩
    have hidx : ((i + fi - 1) * w + (j + fj - 1)) % ULONG = (i + fi - 1) * w + (j + fj - 1) := by
      apply Nat.mod_eq_of_lt
      have h1 : (i + fi - 1 + 1) * w ≤ h * w := Nat.mul_le_mul_right _ (by omega)
      have h2 : h * w ≤ 2 ^ 31 * 2 ^ 31 := Nat.mul_le_mul hh hw
      have h3 : (i + fi - 1 + 1) * w = (i + fi - 1) * w + w := by rw [Nat.add_mul, Nat.one_mul]
      rw [ULONG_eq]
      omega
    simp only [if_pos hcode]
    rw [ex hc.1 hc.2.1, ey hc.2.2.1 hc.2.2.2, hidx, laplacianAt_eq_kernel fi fj hfi hfj]
    simp only [paddedTerm, if_pos hc]
    have kc := kernel_cases fi fj
    have tr := wrap_add_term acc.red m _ (kernel fi fj)
      (image ((i + fi - 1) * w + (j + fj - 1))).r.isLt kc hm hr
    have tg := wrap_add_term acc.green m _ (kernel fi fj)
      (image ((i + fi - 1) * w + (j + fj - 1))).g.isLt kc hm hg
    have tb := wrap_add_term acc.blue m _ (kernel fi fj)
      (image ((i + fi - 1) * w + (j + fj - 1))).b.isLt kc hm hb
    refine ⟨?_, ?_⟩
    · rw [tr.1, tg.1, tb.1]
    · unfold Acc.Within
      simp only
      rw [tr.1, tg.1, tb.1]
      exact ⟨tr.2, tg.2, tb.2⟩
  · have hcode : ¬ (0 ≤ wrapInt (wrapInt (toInt j + (fj : Int)) - 1) ∧
        0 ≤ wrapInt (wrapInt (toInt i + (fi : Int)) - 1) ∧
        toULong (wrapInt (wrapInt (toInt j + (fj : Int)) - 1)) < w ∧
        toULong (wrapInt (wrapInt (toInt i + (fi : Int)) - 1)) < h) := by
      rintro ⟨a, b, c, d⟩
      have hx := cx.1 ⟨a, c⟩
      have hy := cy.1 ⟨b, d⟩
      exact hc ⟨hx.1, hx.2, hy.1, hy.2⟩
    simp only [if_neg hcode, paddedTerm, if_neg hc, add_zero]
    refine ⟨trivial, ?_⟩
    unfold Acc.Within
    omega

theorem foldl3 {α β : Type} (f : α → β → α) (a : α) (x y z : β) :
    List.foldl f a [x, y, z] = f (f (f a x) y) z := rfl

theorem filterRow_unroll (image : Buffer) (w h i j fi : Nat) (acc : Acc) :
    filterRow image w h i j fi acc =
      tap image w h i j fi 2 (tap image w h i j fi 1 (tap image w h i j fi 0 acc)) := by
  unfold filterRow
  rw [show List.range FILTER_WIDTH = [0, 1, 2] from by decide, foldl3]

theorem filterSum_unroll (image : Buffer) (w h i j : Nat) :
    filterSum image w h i j =
      filterRow image w h i j 2 (filterRow image w h i j 1
        (filterRow image w h i j 0 ⟨0, 0, 0⟩)) := by
  unfold filterSum
  rw [show List.range FILTER_HEIGHT = [0, 1, 2] from by decide, foldl3]

/-- One pass of the inner filter loop adds the three zero-padded terms of kernel row `fi`. -/
theorem filterRow_padded (image : Buffer) (w h i j fi : Nat) (hi : i < h) (hj : j < w)
    (hw : w ≤ 2 ^ 31) (hh : h ≤ 2 ^ 31) (hfi : fi < 3)
    (acc : Acc) (m : Int) (hm : m ≤ 2 ^ 29) (hacc : acc.Within m) :
    filterRow image w h i j fi acc =
        ⟨acc.red + ((List.range 3).map fun fj => paddedTerm PPMPixel.r image w h j i fi fj).sum,
         acc.green + ((List.range 3).map fun fj => paddedTerm PPMPixel.g image w h j i fi fj).sum,
         acc.blue + ((List.range 3).map fun fj => paddedTerm PPMPixel.b image w h j i fi fj).sum⟩ ∧
      (filterRow image w h i j fi acc).Within (m + 6120) := by
  have t0 := tap_padded image w h i j fi 0 hi hj hw hh hfi (by decide) acc m (by omega) hacc
  have t1 := tap_padded image w h i j fi 1 hi hj hw hh hfi (by decide) _ (m + 2040) (by omega) t0.2
  have t2 := tap_padded image w h i j fi 2 hi hj hw hh hfi (by decide) _ (m + 2040 + 2040)
    (by omega) t1.2
  have e := filterRow_unroll image w h i j fi acc
  rw [e]
  refine ⟨?_, ?_⟩
  · rw [t2.1, t1.1, t0.1]
    simp only [range3, List.map, List.sum_cons, List.sum_nil, add_zero, add_assoc]
  · have := t2.2
    unfold Acc.Within at this ⊢
    omega

/-- The accumulators after the two filter loops are the zero-padded sums of the
specification, when both dimensions are at most `2 ^ 31`. -/
theorem filterSum_padded (image : Buffer) (w h i j : Nat) (hi : i < h) (hj : j < w)
    (hw : w ≤ 2 ^ 31) (hh : h ≤ 2 ^ 31) :
    filterSum image w h i j =
      ⟨paddedSum PPMPixel.r image w h j i, paddedSum PPMPixel.g image w h j i,
       paddedSum PPMPixel.b image w h j i⟩ := by
  have z : (⟨0, 0, 0⟩ : Acc).Within 0 := by unfold Acc.Within; simp
  have t0 := filterRow_padded image w h i j 0 hi hj hw hh (by decide) ⟨0, 0, 0⟩ 0 (by omega) z
  have t1 := filterRow_padded image w h i j 1 hi hj hw hh (by decide) _ (0 + 6120) (by omega) t0.2
  have t2 := filterRow_padded image w h i j 2 hi hj hw hh (by decide) _ (0 + 6120 + 6120)
    (by omega) t1.2
  have e := filterSum_unroll image w h i j
  rw [e, t2.1, t1.1, t0.1]
  unfold paddedSum
  simp only [range3, List.map, List.sum_cons, List.sum_nil, add_zero, zero_add, add_assoc]

theorem paddedSum_bounds (chan : PPMPixel → Fin 256) (image : Buffer) (w h x y : Nat) :
    -18360 ≤ paddedSum chan image w h x y ∧ paddedSum chan image w h x y ≤ 18360 := by
  unfold paddedSum
  simp only [range3, List.map, List.sum_cons, List.sum_nil, add_zero]
  have b00 := paddedTerm_bounds chan image w h x y 0 0
  have b01 := paddedTerm_bounds chan image w h x y 0 1
  have b02 := paddedTerm_bounds chan image w h x y 0 2
  have b10 := paddedTerm_bounds chan image w h x y 1 0
  have b11 := paddedTerm_bounds chan image w h x y 1 1
  have b12 := paddedTerm_bounds chan image w h x y 1 2
  have b20 := paddedTerm_bounds chan image w h x y 2 0
  have b21 := paddedTerm_bounds chan image w h x y 2 1
  have b22 := paddedTerm_bounds chan image w h x y 2 2
  omega

theorem toUChar_val (v : Int) : ((toUChar v).val : Int) = v % 256 := by
  unfold toUChar
  show (((v % 256).toNat % 256 : Nat) : Int) = v % 256
  omega

/-- The stored byte `(unsigned char) fmax(0, fmin(255, v))` is the clamp of `v`. -/
theorem store_clamp (v : Int) : ((toUChar (fmax 0 (fmin 255 v))).val : Int) = clamp255 v := by
  rw [toUChar_val]
  unfold fmax fmin clamp255
  split_ifs <;> omega

/-- The pixel the worker computes at row `i`, column `j` is the clamped zero-padded
Laplacian of the specification, when both dimensions are at most `2 ^ 31`. -/
theorem computePixel_padded (image : Buffer) (w h i j : Nat) (hi : i < h) (hj : j < w)
    (hw : w ≤ 2 ^ 31) (hh : h ≤ 2 ^ 31) :
    ((computePixel image w h i j).r.val : Int) = clamp255 (paddedSum PPMPixel.r image w h j i) ∧
    ((computePixel image w h i j).g.val : Int) = clamp255 (paddedSum PPMPixel.g image w h j i) ∧
    ((computePixel image w h i j).b.val : Int) = clamp255 (paddedSum PPMPixel.b image w h j i) := by
  unfold computePixel
  simp only [filterSum_padded image w h i j hi hj hw hh, store_clamp]
  exact ⟨trivial, trivial, trivial⟩

/-! ## The row partition (claims C2, C7, C8) -/

theorem params_fields (w h i : Nat) :
    (params w h i).w = w ∧ (params w h i).h = h ∧
      (params w h i).start = workerStart h i ∧ (params w h i).size = workerSize h i :=
  ⟨rfl, rfl, rfl, rfl⟩

/-- C2. For every image height `h` (an `unsigned long`), the four row ranges handed to the
workers start at row 0, each next range starts where the previous one ends, they are
pairwise disjoint, their sizes sum to `h`, and a row lies in one of them exactly when it
is below `h`. -/
theorem partition_covers_image (w h : Nat) (hh : h < ULONG) :
    (params w h 0).start = 0 ∧
    (∀ i, i + 1 < LAPLACIAN_THREADS →
      (params w h (i + 1)).start = (params w h i).start + (params w h i).size) ∧
    (∀ i j y, i < LAPLACIAN_THREADS → j < LAPLACIAN_THREADS → i ≠ j →
      inRange w h i y → inRange w h j y → False) ∧
    ((List.range LAPLACIAN_THREADS).map fun i => (params w h i).size).sum = h ∧
    (∀ y, y < h ↔ ∃ i, i < LAPLACIAN_THREADS ∧ inRange w h i y) := by
  have s0 := workerStart_eq h 0 hh (by decide)
  have s1 := workerStart_eq h 1 hh (by decide)
  have s2 := workerStart_eq h 2 hh (by decide)
  have s3 := workerStart_eq h 3 hh (by decide)
  have z0 := workerSize_eq h 0 (by decide)
  have z1 := workerSize_eq h 1 (by decide)
  have z2 := workerSize_eq h 2 (by decide)
  have z3 := workerSize_last h hh
  refine ⟨?_, ?_, ?_, ?_, ?_⟩
  · show workerStart h 0 = 0
    omega
  · intro i hi
    show workerStart h (i + 1) = workerStart h i + workerSize h i
    have hcase : i = 0 ∨ i = 1 ∨ i = 2 := by unfold LAPLACIAN_THREADS at hi; omega
    rcases hcase with rfl | rfl | rfl
    · show workerStart h 1 = workerStart h 0 + workerSize h 0
      omega
    · show workerStart h 2 = workerStart h 1 + workerSize h 1
      omega
    · show workerStart h 3 = workerStart h 2 + workerSize h 2
      omega
  · intro i j y hi hj hne hyi hyj
    unfold inRange at hyi hyj
    simp only [params_fields] at hyi hyj
    have ci : i = 0 ∨ i = 1 ∨ i = 2 ∨ i = 3 := by unfold LAPLACIAN_THREADS at hi; omega
    have cj : j = 0 ∨ j = 1 ∨ j = 2 ∨ j = 3 := by unfold LAPLACIAN_THREADS at hj; omega
    rcases ci with rfl | rfl | rfl | rfl <;> rcases cj with rfl | rfl | rfl | rfl <;> omega
  · show ((List.range LAPLACIAN_THREADS).map fun i => workerSize h i).sum = h
    rw [show List.range LAPLACIAN_THREADS = [0, 1, 2, 3] from by decide]
    simp only [List.map, List.sum_cons, List.sum_nil]
    omega
  · intro y
    rw [← rows_cover h y hh]
    constructor
    · rintro ⟨i, hi, hr⟩
      exact ⟨i, by simpa using hi, hr⟩
    · rintro ⟨i, hi, hr⟩
      exact ⟨i, by simpa using hi, hr⟩

theorem partition_covers_image_witness :
    (10 : Nat) < ULONG ∧
    ((params 3 10 0).start = 0 ∧
    (∀ i, i + 1 < LAPLACIAN_THREADS →
      (params 3 10 (i + 1)).start = (params 3 10 i).start + (params 3 10 i).size) ∧
    (∀ i j y, i < LAPLACIAN_THREADS → j < LAPLACIAN_THREADS → i ≠ j →
      inRange 3 10 i y → inRange 3 10 j y → False) ∧
    ((List.range LAPLACIAN_THREADS).map fun i => (params 3 10 i).size).sum = 10 ∧
    (∀ y, y < 10 ↔ ∃ i, i < LAPLACIAN_THREADS ∧ inRange 3 10 i y)) :=
  ⟨by decide, partition_covers_image 3 10 (by decide)⟩

/-- C7, as the claim states it, fails at height 1: the last worker (index 3, which is not
below the height) is given the one row of the image, not a zero-length range. -/
theorem last_worker_nonempty_at_height_one :
    (1 : Nat) < LAPLACIAN_THREADS ∧ 1 ≤ LAPLACIAN_THREADS - 1 ∧
      (params 1 1 (LAPLACIAN_THREADS - 1)).start = 0 ∧
      (params 1 1 (LAPLACIAN_THREADS - 1)).size = 1 := by
  decide

/-- C7, amended. For every height `H` below the worker count, every range satisfies
`start + size ≤ H` and the subtraction of the last size does not underflow; the first
three workers receive the zero-length range at row 0 and the last worker receives the
whole image, `start = 0` and `size = H`. -/
theorem few_rows_partition (w H : Nat) (hH : H < LAPLACIAN_THREADS) :
    (∀ i, i < LAPLACIAN_THREADS → (params w H i).start + (params w H i).size ≤ H) ∧
    (LAPLACIAN_THREADS - 1) * work H ≤ H ∧
    (∀ i, i < LAPLACIAN_THREADS - 1 → (params w H i).start = 0 ∧ (params w H i).size = 0) ∧
    (params w H (LAPLACIAN_THREADS - 1)).start = 0 ∧
    (params w H (LAPLACIAN_THREADS - 1)).size = H := by
  have hcase : H = 0 ∨ H = 1 ∨ H = 2 ∨ H = 3 := by unfold LAPLACIAN_THREADS at hH; omega
  have hi4 : ∀ i, i < LAPLACIAN_THREADS → i = 0 ∨ i = 1 ∨ i = 2 ∨ i = 3 := by
    intro i hi; unfold LAPLACIAN_THREADS at hi; omega
  have hi3 : ∀ i, i < LAPLACIAN_THREADS - 1 → i = 0 ∨ i = 1 ∨ i = 2 := by
    intro i hi; unfold LAPLACIAN_THREADS at hi; omega
  simp only [params_fields]
  refine ⟨?_, ?_, ?_, ?_, ?_⟩
  · intro i hi
    rcases hcase with rfl | rfl | rfl | rfl <;>
      rcases hi4 i hi with rfl | rfl | rfl | rfl <;> decide
  · rcases hcase with rfl | rfl | rfl | rfl <;> decide
  · intro i hi
    rcases hcase with rfl | rfl | rfl | rfl <;>
      rcases hi3 i hi with rfl | rfl | rfl <;> decide
  · rcases hcase with rfl | rfl | rfl | rfl <;> decide
  · rcases hcase with rfl | rfl | rfl | rfl <;> decide

theorem few_rows_partition_witness :
    (2 : Nat) < LAPLACIAN_THREADS ∧
    ((∀ i, i < LAPLACIAN_THREADS → (params 5 2 i).start + (params 5 2 i).size ≤ 2) ∧
    (LAPLACIAN_THREADS - 1) * work 2 ≤ 2 ∧
    (∀ i, i < LAPLACIAN_THREADS - 1 → (params 5 2 i).start = 0 ∧ (params 5 2 i).size = 0) ∧
    (params 5 2 (LAPLACIAN_THREADS - 1)).start = 0 ∧
    (params 5 2 (LAPLACIAN_THREADS - 1)).size = 2) :=
  ⟨by decide, few_rows_partition 5 2 (by decide)⟩

/-- C8. For every image height `h` (an `unsigned long`), with `base = h / 4`, workers 0, 1
and 2 get `start = i * base` and `size = base`, the last worker gets `start = 3 * base`
and `size = h - 3 * base`, and `3 * base ≤ h`, so that subtraction does not underflow. -/
theorem partition_formula (w h : Nat) (hh : h < ULONG) :
    (∀ i, i < LAPLACIAN_THREADS - 1 →
      (params w h i).start = i * (h / 4) ∧ (params w h i).size = h / 4) ∧
    (params w h 3).start = 3 * (h / 4) ∧
    (params w h 3).size = h - 3 * (h / 4) ∧
    3 * (h / 4) ≤ h := by
  refine ⟨?_, ?_, ?_, ?_⟩
  · intro i hi
    exact ⟨workerStart_eq h i hh (by unfold LAPLACIAN_THREADS at *; omega), workerSize_eq h i hi⟩
  · exact workerStart_eq h 3 hh (by decide)
  · exact (workerSize_last h hh).1
  · exact (workerSize_last h hh).2

theorem partition_formula_witness :
    (10 : Nat) < ULONG ∧
    ((∀ i, i < LAPLACIAN_THREADS - 1 →
      (params 3 10 i).start = i * (10 / 4) ∧ (params 3 10 i).size = 10 / 4) ∧
    (params 3 10 3).start = 3 * (10 / 4) ∧
    (params 3 10 3).size = 10 - 3 * (10 / 4) ∧
    3 * (10 / 4) ≤ 10) :=
  ⟨by decide, partition_formula 3 10 (by decide)⟩

/-! ## The worker on one row range (claims C1, C4, C5) -/

/-- The offsets of the worker's slice are the offsets `y * w + x` of the pixels of its rows. -/
theorem inSlice_iff (p : parameter) (k : Nat) :
    inSlice p k ↔ ∃ x y, x < p.w ∧ p.start ≤ y ∧ y < (p.start + p.size) % ULONG ∧ y < p.h ∧
      k = y * p.w + x := by
  constructor
  · rintro ⟨hw, h1, h2, h3⟩
    refine ⟨k % p.w, k / p.w, Nat.mod_lt k hw, h1, h2, h3, ?_⟩
    have := Nat.div_add_mod k p.w
    rw [Nat.mul_comm] at this
    omega
  · rintro ⟨x, y, hx, h1, h2, h3, rfl⟩
    have hw : 0 < p.w := by omega
    have hdiv : (y * p.w + x) / p.w = y := by
      rw [Nat.add_comm, Nat.add_mul_div_right x y hw, Nat.div_eq_of_lt hx, Nat.zero_add]
    unfold inSlice
    rw [hdiv]
    exact ⟨hw, h1, h2, h3⟩

theorem offset_div_mod (w x y : Nat) (hx : x < w) :
    (y * w + x) / w = y ∧ (y * w + x) % w = x := by
  have hw : 0 < w := by omega
  constructor
  · rw [Nat.add_comm, Nat.add_mul_div_right x y hw, Nat.div_eq_of_lt hx, Nat.zero_add]
  · rw [Nat.add_comm, Nat.add_mul_mod_self_right, Nat.mod_eq_of_lt hx]

/-- Inside its row range the worker stores the clamped zero-padded Laplacian of the
specification, when both dimensions are at most `2 ^ 31`. -/
theorem threadfn_padded (image : Buffer) (p : parameter) (result : Buffer)
    (hw : p.w ≤ 2 ^ 31) (hh : p.h ≤ 2 ^ 31) (x y : Nat) (hx : x < p.w)
    (h1 : p.start ≤ y) (h2 : y < (p.start + p.size) % ULONG) (h3 : y < p.h) :
    ((compute_laplacian_threadfn image p result (y * p.w + x)).r.val : Int) =
        clamp255 (paddedSum PPMPixel.r image p.w p.h x y) ∧
    ((compute_laplacian_threadfn image p result (y * p.w + x)).g.val : Int) =
        clamp255 (paddedSum PPMPixel.g image p.w p.h x y) ∧
    ((compute_laplacian_threadfn image p result (y * p.w + x)).b.val : Int) =
        clamp255 (paddedSum PPMPixel.b image p.w p.h x y) := by
  have hhU : p.h < ULONG := by rw [ULONG_eq]; omega
  have hwh : p.w * p.h < ULONG := by
    have : p.w * p.h ≤ 2 ^ 31 * 2 ^ 31 := Nat.mul_le_mul hw hh
    rw [ULONG_eq]; omega
  have hin : inSlice p (y * p.w + x) := (inSlice_iff p _).2 ⟨x, y, hx, h1, h2, h3, rfl⟩
  have hdm := offset_div_mod p.w x y hx
  rw [threadfn_apply image p result hhU hwh, if_pos hin, hdm.1, hdm.2]
  exact computePixel_padded image p.w p.h y x h3 hx hw hh

/-- C1 at a large height. Width 1, height `2 ^ 31 + 2`, row range `(2 ^ 31 + 1, 1)`, source
value 1 at the pixel `(0, 2 ^ 31 + 1)` and 0 elsewhere: the pixel lies in the range, its
centre tap is inside the image and the zero-padded sum clamps to 8, yet the worker stores
0, because `(int) i` is negative and every tap fails the test `y >= 0`. -/
theorem large_height_tap_dropped :
    ((0 : Nat) < 1 ∧ 2 ^ 31 + 1 ≤ 2 ^ 31 + 1 ∧ 2 ^ 31 + 1 < (2 ^ 31 + 1) + 1 ∧
        2 ^ 31 + 1 < 2 ^ 31 + 2) ∧
      clamp255 (paddedSum PPMPixel.r (dotImage ((2 ^ 31 + 1) * 1 + 0)) 1 (2 ^ 31 + 2) 0
        (2 ^ 31 + 1)) = 8 ∧
      compute_laplacian_threadfn (dotImage ((2 ^ 31 + 1) * 1 + 0))
        ⟨1, 2 ^ 31 + 2, 2 ^ 31 + 1, 1⟩ (constImage white) ((2 ^ 31 + 1) * 1 + 0) = black := by
  decide

/-- At an interior pixel the zero-padded sum is the full nine-term sum. -/
theorem paddedSum_interior (chan : PPMPixel → Fin 256) (image : Buffer) (w h x y : Nat)
    (hx1 : 1 ≤ x) (hx2 : x + 1 < w) (hy1 : 1 ≤ y) (hy2 : y + 1 < h) :
    paddedSum chan image w h x y = interiorSum chan image w x y := by
  have c : ∀ fi fj, fi < 3 → fj < 3 →
      (1 ≤ x + fj ∧ x + fj - 1 < w ∧ 1 ≤ y + fi ∧ y + fi - 1 < h) := by
    intro fi fj hfi hfj; omega
  have ex : x + 0 - 1 = x - 1 ∧ x + 1 - 1 = x ∧ x + 2 - 1 = x + 1 := by omega
  have ey : y + 0 - 1 = y - 1 ∧ y + 1 - 1 = y ∧ y + 2 - 1 = y + 1 := by omega
  unfold paddedSum interiorSum
  simp only [range3, List.map, List.sum_cons, List.sum_nil, paddedTerm,
    if_pos (c 0 0 (by decide) (by decide)), if_pos (c 0 1 (by decide) (by decide)),
    if_pos (c 0 2 (by decide) (by decide)), if_pos (c 1 0 (by decide) (by decide)),
    if_pos (c 1 1 (by decide) (by decide)), if_pos (c 1 2 (by decide) (by decide)),
    if_pos (c 2 0 (by decide) (by decide)), if_pos (c 2 1 (by decide) (by decide)),
    if_pos (c 2 2 (by decide) (by decide)), ex.1, ex.2.1, ex.2.2, ey.1, ey.2.1, ey.2.2]
  have k00 : kernel 0 0 = -1 := by decide
  have k01 : kernel 0 1 = -1 := by decide
  have k02 : kernel 0 2 = -1 := by decide
  have k10 : kernel 1 0 = -1 := by decide
  have k11 : kernel 1 1 = 8 := by decide
  have k12 : kernel 1 2 = -1 := by decide
  have k20 : kernel 2 0 = -1 := by decide
  have k21 : kernel 2 1 = -1 := by decide
  have k22 : kernel 2 2 = -1 := by decide
  rw [k00, k01, k02, k10, k11, k12, k20, k21, k22]
  omega

/-- C4 at a large height. Width 3, height `2 ^ 31 + 3`, row range `(2 ^ 31 + 1, 1)`, source
value 1 at the interior pixel `(1, 2 ^ 31 + 1)` and 0 elsewhere: the nine-term sum clamps
to 8, yet the worker stores 0. -/
theorem large_height_interior_dropped :
    ((3 : Nat) ≤ 3 ∧ 3 ≤ 2 ^ 31 + 3 ∧ 1 ≤ 1 ∧ 1 ≤ 3 - 2 ∧ 1 ≤ 2 ^ 31 + 1 ∧
        2 ^ 31 + 1 ≤ 2 ^ 31 + 3 - 2) ∧
      clamp255 (interiorSum PPMPixel.g (dotImage ((2 ^ 31 + 1) * 3 + 1)) 3 1
        (2 ^ 31 + 1)) = 8 ∧
      compute_laplacian_threadfn (dotImage ((2 ^ 31 + 1) * 3 + 1))
        ⟨3, 2 ^ 31 + 3, 2 ^ 31 + 1, 1⟩ (constImage white) ((2 ^ 31 + 1) * 3 + 1) = black := by
  decide

/-- C5, as the claim states it, fails when `start + size` exceeds the `unsigned long`
range. Width 1, height 2, range `(1, 2 ^ 64 - 1)`: row 1 lies in `[start, start + size)`
and below the height, yet the entry of pixel `(0, 1)` keeps its initial contents, whatever
they are, since the loop test compares with the wrapped sum 0. -/
theorem wrapped_range_end_writes_nothing :
    ((1 : Nat) ≤ 1 ∧ 1 < 1 + (2 ^ 64 - 1) ∧ 1 < 2) ∧
      compute_laplacian_threadfn (constImage white) ⟨1, 2, 1, 2 ^ 64 - 1⟩ (constImage black)
        (1 * 1 + 0) = black ∧
      compute_laplacian_threadfn (constImage white) ⟨1, 2, 1, 2 ^ 64 - 1⟩ (constImage white)
        (1 * 1 + 0) = white := by
  decide

/-- C5, amended. For every image and row range (its dimensions `unsigned long` values
with `w * h` pixel offsets), and every initial output buffer: the worker stores the
computed pixel at every offset `y * w + x` with `x < w` and `y` in `[start, e)` and below
`h`, where `e` is the `unsigned long` sum `start + size` of the loop test, and leaves
every other entry of the output buffer as it was; no row at or beyond `h` is written. -/
theorem worker_writes_own_slice (image : Buffer) (p : parameter) (result : Buffer)
    (hh : p.h < ULONG) (hwh : p.w * p.h < ULONG) :
    (∀ x y, x < p.w → p.start ≤ y → y < (p.start + p.size) % ULONG → y < p.h →
      compute_laplacian_threadfn image p result (y * p.w + x) =
        computePixel image p.w p.h y x) ∧
    (∀ k, (¬ ∃ x y, x < p.w ∧ p.start ≤ y ∧ y < (p.start + p.size) % ULONG ∧ y < p.h ∧
        k = y * p.w + x) →
      compute_laplacian_threadfn image p result k = result k) ∧
    (∀ x y, x < p.w → p.h ≤ y →
      compute_laplacian_threadfn image p result (y * p.w + x) = result (y * p.w + x)) := by
  refine ⟨?_, ?_, ?_⟩
  · intro x y hx h1 h2 h3
    have hin : inSlice p (y * p.w + x) := (inSlice_iff p _).2 ⟨x, y, hx, h1, h2, h3, rfl⟩
    have hdm := offset_div_mod p.w x y hx
    rw [threadfn_apply image p result hh hwh, if_pos hin, hdm.1, hdm.2]
  · intro k hk
    have hout : ¬ inSlice p k := fun hin => hk ((inSlice_iff p k).1 hin)
    rw [threadfn_apply image p result hh hwh, if_neg hout]
  · intro x y hx hy
    have hdm := offset_div_mod p.w x y hx
    have hout : ¬ inSlice p (y * p.w + x) := by
      rintro ⟨_, _, _, h3⟩
      rw [hdm.1] at h3
      omega
    rw [threadfn_apply image p result hh hwh, if_neg hout]

theorem worker_writes_own_slice_witness :
    ((2 : Nat) < ULONG ∧ 2 * 2 < ULONG) ∧
    ((∀ x y, x < 2 → 1 ≤ y → y < (1 + 5) % ULONG → y < 2 →
      compute_laplacian_threadfn (constImage white) ⟨2, 2, 1, 5⟩ (constImage black) (y * 2 + x) =
        computePixel (constImage white) 2 2 y x) ∧
    (∀ k, (¬ ∃ x y, x < 2 ∧ 1 ≤ y ∧ y < (1 + 5) % ULONG ∧ y < 2 ∧ k = y * 2 + x) →
      compute_laplacian_threadfn (constImage white) ⟨2, 2, 1, 5⟩ (constImage black) k =
        constImage black k) ∧
    (∀ x y, x < 2 → 2 ≤ y →
      compute_laplacian_threadfn (constImage white) ⟨2, 2, 1, 5⟩ (constImage black) (y * 2 + x) =
        constImage black (y * 2 + x))) :=
  ⟨by decide, worker_writes_own_slice (constImage white) ⟨2, 2, 1, 5⟩ (constImage black)
    (by decide) (by decide)⟩

/-! ## The orchestrator (claims C3, C6, C9, C10) -/

/-- In an environment that lets it run, `apply_filters` returns the buffer left by the
four workers. -/
theorem apply_filters_runs (image : Buffer) (w h : Nat) (env : Env) (init : Buffer)
    (hrun : env.Runs init) :
    apply_filters image w h env = some (runWorkers image w h env.order init) := by
  obtain ⟨hm, hc, _⟩ := hrun
  have hany : (List.range LAPLACIAN_THREADS).any env.createFails = false := by
    rw [show List.range LAPLACIAN_THREADS = [0, 1, 2, 3] from by decide]
    simp [List.any, hc 0 (by decide), hc 1 (by decide), hc 2 (by decide), hc 3 (by decide)]
  unfold apply_filters
  rw [hm]
  simp only [hany]
  rfl

theorem okEnv_runs (init : Buffer) : (okEnv init).Runs init :=
  ⟨rfl, fun _ _ => rfl, List.Perm.refl _⟩

/-- The buffer left by one worker given the whole image, the range `(0, h)`. -/
theorem whole_range_apply (image : Buffer) (w h : Nat) (hh : h < ULONG) (hwh : w * h < ULONG)
    (result : Buffer) (k : Nat) :
    compute_laplacian_threadfn image ⟨w, h, 0, h⟩ result k =
      if k < w * h then computePixel image w h (k / w) (k % w) else result k := by
  rw [threadfn_apply image ⟨w, h, 0, h⟩ result hh hwh k]
  have hmod : (0 + h) % ULONG = h := by rw [Nat.zero_add]; exact Nat.mod_eq_of_lt hh
  have hiff : inSlice ⟨w, h, 0, h⟩ k ↔ k < w * h := by
    unfold inSlice
    simp only [hmod]
    constructor
    · rintro ⟨hw, _, _, h3⟩
      rw [Nat.div_lt_iff_lt_mul hw, Nat.mul_comm] at h3
      exact h3
    · intro hk
      have hw : 0 < w := by
        rcases Nat.eq_zero_or_pos w with h0 | h0
        · subst h0; simp at hk
        · exact h0
      have h3 : k / w < h := by
        rw [Nat.div_lt_iff_lt_mul hw, Nat.mul_comm]; exact hk
      exact ⟨hw, Nat.zero_le _, h3, h3⟩
  by_cases hk : k < w * h
  · rw [if_pos (hiff.2 hk), if_pos hk]
  · rw [if_neg (fun hc => hk (hiff.1 hc)), if_neg hk]

theorem offset_lt (w h x y : Nat) (hx : x < w) (hy : y < h) : y * w + x < w * h := by
  have h1 : (y + 1) * w ≤ h * w := Nat.mul_le_mul_right _ (by omega)
  have h2 : (y + 1) * w = y * w + w := by rw [Nat.add_mul, Nat.one_mul]
  have h3 : h * w = w * h := Nat.mul_comm _ _
  omega

/-- C3 at a large height. Width 1, height `2 ^ 31 + 2`, source value 1 at the pixel
`(0, 2 ^ 31 + 1)` and 0 elsewhere: `apply_filters` returns a buffer whose entry for that
pixel is 0, while the zero-padded sum there clamps to 8. -/
theorem large_height_filter_differs :
    clamp255 (paddedSum PPMPixel.b (dotImage (2 ^ 31 + 1)) 1 (2 ^ 31 + 2) 0 (2 ^ 31 + 1)) = 8 ∧
      ∃ res, apply_filters (dotImage (2 ^ 31 + 1)) 1 (2 ^ 31 + 2) (okEnv (constImage white)) =
          some res ∧ res ((2 ^ 31 + 1) * 1 + 0) = black := by
  refine ⟨by decide, _, apply_filters_runs _ _ _ _ _ (okEnv_runs _), ?_⟩
  rw [runWorkers_perm_apply _ 1 (2 ^ 31 + 2) (by decide) (by decide) _ (okEnv_runs _).2.2,
    if_pos (by decide)]
  decide

/-- What holds of C3 for every source image (its dimensions `unsigned long` values with
`w * h` pixel offsets) and every run of `apply_filters` in which allocation and thread
creation succeed: a buffer is returned; each of its entries `y * w + x` with `x < w` and
`y < h` holds the pixel the worker computes there; the buffer is the one produced by a
single worker on the range `(0, h)`; its `w * h` entries are the same for any other
initial contents of the block and any other order of the workers; and each entry is the
clamped zero-padded Laplacian of the specification when `w` and `h` are at most `2 ^ 31`. -/
theorem partitioned_equals_whole (image : Buffer) (w h : Nat) (env : Env) (init : Buffer)
    (hh : h < ULONG) (hwh : w * h < ULONG) (hrun : env.Runs init) :
    ∃ res, apply_filters image w h env = some res ∧
      (∀ x y, x < w → y < h → res (y * w + x) = computePixel image w h y x) ∧
      res = compute_laplacian_threadfn image ⟨w, h, 0, h⟩ init ∧
      (∀ env2 init2, env2.Runs init2 →
        ∃ res2, apply_filters image w h env2 = some res2 ∧ ∀ k, k < w * h → res2 k = res k) ∧
      (w ≤ 2 ^ 31 → h ≤ 2 ^ 31 → ∀ x y, x < w → y < h →
        ((res (y * w + x)).r.val : Int) = clamp255 (paddedSum PPMPixel.r image w h x y) ∧
        ((res (y * w + x)).g.val : Int) = clamp255 (paddedSum PPMPixel.g image w h x y) ∧
        ((res (y * w + x)).b.val : Int) = clamp255 (paddedSum PPMPixel.b image w h x y)) := by
  have hval : ∀ x y, x < w → y < h →
      runWorkers image w h env.order init (y * w + x) = computePixel image w h y x := by
    intro x y hx hy
    have hdm := offset_div_mod w x y hx
    rw [runWorkers_perm_apply image w h hh hwh env.order hrun.2.2 init,
      if_pos (offset_lt w h x y hx hy), hdm.1, hdm.2]
  refine ⟨_, apply_filters_runs image w h env init hrun, hval, ?_, ?_, ?_⟩
  · funext k
    rw [runWorkers_perm_apply image w h hh hwh env.order hrun.2.2 init k,
      whole_range_apply image w h hh hwh init k]
  · intro env2 init2 hrun2
    refine ⟨_, apply_filters_runs image w h env2 init2 hrun2, ?_⟩
    intro k hk
    rw [runWorkers_perm_apply image w h hh hwh env2.order hrun2.2.2 init2 k,
      runWorkers_perm_apply image w h hh hwh env.order hrun.2.2 init k, if_pos hk, if_pos hk]
  · intro hw31 hh31 x y hx hy
    rw [hval x y hx hy]
    exact computePixel_padded image w h y x hy hx hw31 hh31

theorem partitioned_equals_whole_witness :
    ((2 : Nat) < ULONG ∧ 2 * 2 < ULONG ∧ (okEnv (constImage black)).Runs (constImage black)) ∧
    ∃ res, apply_filters (constImage white) 2 2 (okEnv (constImage black)) = some res ∧
      (∀ x y, x < 2 → y < 2 → res (y * 2 + x) = computePixel (constImage white) 2 2 y x) ∧
      res = compute_laplacian_threadfn (constImage white) ⟨2, 2, 0, 2⟩ (constImage black) ∧
      (∀ env2 init2, env2.Runs init2 →
        ∃ res2, apply_filters (constImage white) 2 2 env2 = some res2 ∧
          ∀ k, k < 2 * 2 → res2 k = res k) ∧
      (2 ≤ 2 ^ 31 → 2 ≤ 2 ^ 31 → ∀ x y, x < 2 → y < 2 →
        ((res (y * 2 + x)).r.val : Int) =
          clamp255 (paddedSum PPMPixel.r (constImage white) 2 2 x y) ∧
        ((res (y * 2 + x)).g.val : Int) =
          clamp255 (paddedSum PPMPixel.g (constImage white) 2 2 x y) ∧
        ((res (y * 2 + x)).b.val : Int) =
          clamp255 (paddedSum PPMPixel.b (constImage white) 2 2 x y)) :=
  ⟨⟨by decide, by decide, okEnv_runs _⟩,
    partitioned_equals_whole (constImage white) 2 2 (okEnv (constImage black)) (constImage black)
      (by decide) (by decide) (okEnv_runs _)⟩

/-- C6. For every source image (its dimensions `unsigned long` values with `w * h` pixel
offsets), any two runs of `apply_filters` in which allocation and thread creation succeed
return buffers with the same `w * h` pixels, whatever the order in which the four workers
run in each and whatever the block `malloc` returned; with the same block the two
buffers are equal, and equal to the buffer of the run in creation order. -/
theorem filter_order_independent (image : Buffer) (w h : Nat) (env1 env2 : Env)
    (init1 init2 : Buffer) (hh : h < ULONG) (hwh : w * h < ULONG)
    (hrun1 : env1.Runs init1) (hrun2 : env2.Runs init2) :
    ∃ res1 res2, apply_filters image w h env1 = some res1 ∧
      apply_filters image w h env2 = some res2 ∧
      (∀ k, k < w * h → res1 k = res2 k) ∧
      (init1 = init2 → res1 = res2) ∧
      res1 = runWorkers image w h (List.range LAPLACIAN_THREADS) init1 := by
  refine ⟨_, _, apply_filters_runs image w h env1 init1 hrun1,
    apply_filters_runs image w h env2 init2 hrun2, ?_, ?_, ?_⟩
  · intro k hk
    rw [runWorkers_perm_apply image w h hh hwh env1.order hrun1.2.2 init1 k,
      runWorkers_perm_apply image w h hh hwh env2.order hrun2.2.2 init2 k, if_pos hk, if_pos hk]
  · intro he
    funext k
    rw [runWorkers_perm_apply image w h hh hwh env1.order hrun1.2.2 init1 k,
      runWorkers_perm_apply image w h hh hwh env2.order hrun2.2.2 init2 k, he]
  · funext k
    rw [runWorkers_perm_apply image w h hh hwh env1.order hrun1.2.2 init1 k,
      runWorkers_perm_apply image w h hh hwh _ (List.Perm.refl _) init1 k]

theorem filter_order_independent_witness :
    ((5 : Nat) < ULONG ∧ 3 * 5 < ULONG ∧
      (Env.mk (some (constImage black)) (fun _ => false) [3, 1, 0, 2]).Runs (constImage black) ∧
      (Env.mk (some (constImage white)) (fun _ => false) [2, 0, 3, 1]).Runs (constImage white)) ∧
    ∃ res1 res2,
      apply_filters (dotImage 7) 3 5
        (Env.mk (some (constImage black)) (fun _ => false) [3, 1, 0, 2]) = some res1 ∧
      apply_filters (dotImage 7) 3 5
        (Env.mk (some (constImage white)) (fun _ => false) [2, 0, 3, 1]) = some res2 ∧
      (∀ k, k < 3 * 5 → res1 k = res2 k) ∧
      (constImage black = constImage white → res1 = res2) ∧
      res1 = runWorkers (dotImage 7) 3 5 (List.range LAPLACIAN_THREADS) (constImage black) :=
  ⟨⟨by decide, by decide, ⟨rfl, fun _ _ => rfl, by decide⟩, ⟨rfl, fun _ _ => rfl, by decide⟩⟩,
    filter_order_independent (dotImage 7) 3 5 _ _ (constImage black) (constImage white)
      (by decide) (by decide) ⟨rfl, fun _ _ => rfl, by decide⟩ ⟨rfl, fun _ _ => rfl, by decide⟩⟩

/-- On a black source every tap leaves zero accumulators at zero: a tap that passes the
bounds test reads inside the `w * h` pixels. -/
theorem tap_black (image : Buffer) (w h i j fi fj : Nat) (hwh : w * h < ULONG)
    (hblack : ∀ k, k < w * h → image k = black) :
    tap image w h i j fi fj ⟨0, 0, 0⟩ = ⟨0, 0, 0⟩ := by
  unfold tap
  rw [half_filter.1, half_filter.2]
  by_cases hc : 0 ≤ wrapInt (wrapInt (toInt j + (fj : Int)) - 1) ∧
      0 ≤ wrapInt (wrapInt (toInt i + (fi : Int)) - 1) ∧
      toULong (wrapInt (wrapInt (toInt j + (fj : Int)) - 1)) < w ∧
      toULong (wrapInt (wrapInt (toInt i + (fi : Int)) - 1)) < h
  · have hlt := offset_lt w h _ _ hc.2.2.1 hc.2.2.2
    have hidx : (toULong (wrapInt (wrapInt (toInt i + (fi : Int)) - 1)) * w +
        toULong (wrapInt (wrapInt (toInt j + (fj : Int)) - 1))) % ULONG =
        toULong (wrapInt (wrapInt (toInt i + (fi : Int)) - 1)) * w +
          toULong (wrapInt (wrapInt (toInt j + (fj : Int)) - 1)) :=
      Nat.mod_eq_of_lt (by omega)
    have hz : wrapInt (0 + wrapInt (((0 : Fin 256).val : Int) * laplacianAt fi fj)) = 0 := by
      have : ((0 : Fin 256).val : Int) * laplacianAt fi fj = 0 := by
        rw [show ((0 : Fin 256).val : Int) = 0 from rfl, zero_mul]
      rw [this]
      decide
    simp only [if_pos hc]
    rw [hidx, hblack _ hlt]
    show (⟨wrapInt (0 + wrapInt (((0 : Fin 256).val : Int) * laplacianAt fi fj)),
      wrapInt (0 + wrapInt (((0 : Fin 256).val : Int) * laplacianAt fi fj)),
      wrapInt (0 + wrapInt (((0 : Fin 256).val : Int) * laplacianAt fi fj))⟩ : Acc) = ⟨0, 0, 0⟩
    rw [hz]
  · simp only [if_neg hc]

theorem computePixel_black (image : Buffer) (w h i j : Nat) (hwh : w * h < ULONG)
    (hblack : ∀ k, k < w * h → image k = black) :
    computePixel image w h i j = black := by
  have t : ∀ fi fj, tap image w h i j fi fj ⟨0, 0, 0⟩ = ⟨0, 0, 0⟩ :=
    fun fi fj => tap_black image w h i j fi fj hwh hblack
  have r : ∀ fi, filterRow image w h i j fi ⟨0, 0, 0⟩ = ⟨0, 0, 0⟩ := by
    intro fi
    rw [filterRow_unroll, t, t, t]
  have e : filterSum image w h i j = ⟨0, 0, 0⟩ := by
    rw [filterSum_unroll, r, r, r]
  unfold computePixel
  rw [e]
  decide

/-- C9. For every width and height (`unsigned long` values with `w * h` pixel offsets; in
particular every width and height at least 1, such as the 2×2 image), if every pixel of
the source is `(0, 0, 0)` then `apply_filters`, in a run in which allocation and thread
creation succeed, returns a buffer whose `w * h` pixels are all `(0, 0, 0)`. -/
theorem black_image_stays_black (image : Buffer) (w h : Nat) (env : Env) (init : Buffer)
    (hh : h < ULONG) (hwh : w * h < ULONG) (hrun : env.Runs init)
    (hblack : ∀ k, k < w * h → image k = black) :
    ∃ res, apply_filters image w h env = some res ∧ ∀ k, k < w * h → res k = black := by
  refine ⟨_, apply_filters_runs image w h env init hrun, ?_⟩
  intro k hk
  rw [runWorkers_perm_apply image w h hh hwh env.order hrun.2.2 init k, if_pos hk]
  exact computePixel_black image w h _ _ hwh hblack

theorem black_image_stays_black_witness :
    ((2 : Nat) < ULONG ∧ 2 * 2 < ULONG ∧
      (okEnv (constImage white)).Runs (constImage white) ∧
      ∀ k, k < 2 * 2 → constImage black k = black) ∧
    ∃ res, apply_filters (constImage black) 2 2 (okEnv (constImage white)) = some res ∧
      ∀ k, k < 2 * 2 → res k = black :=
  ⟨⟨by decide, by decide, okEnv_runs _, fun _ _ => rfl⟩,
    black_image_stays_black (constImage black) 2 2 (okEnv (constImage white)) (constImage white)
      (by decide) (by decide) (okEnv_runs _) (fun _ _ => rfl)⟩

theorem paddedSum_single (chan : PPMPixel → Fin 256) (image : Buffer) :
    paddedSum chan image 1 1 0 0 = 8 * ((chan (image 0)).val : Int) := by
  unfold paddedSum
  simp [range3, paddedTerm, kernel]

/-- C10. For every 1×1 source image with pixel `(r, g, b)`, `apply_filters`, in a run in
which allocation and thread creation succeed, returns a buffer whose one pixel is
`(min 255 (8 r), min 255 (8 g), min 255 (8 b))`. -/
theorem single_pixel_image (image : Buffer) (env : Env) (init : Buffer) (hrun : env.Runs init) :
    ∃ res, apply_filters image 1 1 env = some res ∧
      (res 0).r.val = min 255 (8 * (image 0).r.val) ∧
      (res 0).g.val = min 255 (8 * (image 0).g.val) ∧
      (res 0).b.val = min 255 (8 * (image 0).b.val) := by
  refine ⟨_, apply_filters_runs image 1 1 env init hrun, ?_⟩
  rw [runWorkers_perm_apply image 1 1 (by decide) (by decide) env.order hrun.2.2 init 0,
    if_pos (by decide)]
  have hp := computePixel_padded image 1 1 0 0 (by decide) (by decide) (by decide) (by decide)
  rw [paddedSum_single, paddedSum_single, paddedSum_single] at hp
  unfold clamp255 at hp
  have hr := (image 0).r.isLt
  have hg := (image 0).g.isLt
  have hb := (image 0).b.isLt
  obtain ⟨h1, h2, h3⟩ := hp
  have e : (0 : Nat) / 1 = 0 ∧ (0 : Nat) % 1 = 0 := by decide
  rw [e.1, e.2]
  refine ⟨?_, ?_, ?_⟩
  · split_ifs at h1 <;> omega
  · split_ifs at h2 <;> omega
  · split_ifs at h3 <;> omega

theorem single_pixel_image_witness :
    (okEnv (constImage black)).Runs (constImage black) ∧
    ∃ res, apply_filters (constImage white) 1 1 (okEnv (constImage black)) = some res ∧
      (res 0).r.val = min 255 (8 * (constImage white 0).r.val) ∧
      (res 0).g.val = min 255 (8 * (constImage white 0).g.val) ∧
      (res 0).b.val = min 255 (8 * (constImage white 0).b.val) :=
  ⟨okEnv_runs _,
    single_pixel_image (constImage white) (okEnv (constImage black)) (constImage black)
      (okEnv_runs _)⟩

/-! ## Load balance (claim C20) -/

/-- C20. For every image height `h` (an `unsigned long`), the last worker's row count
`h - 3 * (h / 4)` equals `h / 4 + h % 4`: it is at least the share `h / 4` of each of the
first three workers and exceeds it by at most 3. -/
theorem last_worker_share (w h : Nat) (hh : h < ULONG) :
    (params w h (LAPLACIAN_THREADS - 1)).size = h - 3 * (h / 4) ∧
    (params w h (LAPLACIAN_THREADS - 1)).size = h / 4 + h % 4 ∧
    (∀ i, i < LAPLACIAN_THREADS - 1 →
      (params w h i).size = h / 4 ∧
      (params w h i).size ≤ (params w h (LAPLACIAN_THREADS - 1)).size ∧
      (params w h (LAPLACIAN_THREADS - 1)).size ≤ (params w h i).size + 3) := by
  have z3 := workerSize_last h hh
  have e : (params w h (LAPLACIAN_THREADS - 1)).size = workerSize h 3 := rfl
  rw [e]
  refine ⟨z3.1, by omega, ?_⟩
  intro i hi
  have zi : (params w h i).size = h / 4 := workerSize_eq h i hi
  rw [zi]
  omega

theorem last_worker_share_witness :
    (10 : Nat) < ULONG ∧
    ((params 3 10 (LAPLACIAN_THREADS - 1)).size = 10 - 3 * (10 / 4) ∧
    (params 3 10 (LAPLACIAN_THREADS - 1)).size = 10 / 4 + 10 % 4 ∧
    (∀ i, i < LAPLACIAN_THREADS - 1 →
      (params 3 10 i).size = 10 / 4 ∧
      (params 3 10 i).size ≤ (params 3 10 (LAPLACIAN_THREADS - 1)).size ∧
      (params 3 10 (LAPLACIAN_THREADS - 1)).size ≤ (params 3 10 i).size + 3)) :=
  ⟨by decide, last_worker_share 3 10 (by decide)⟩

/-! ## The accumulators of the filter loops (claim C19) -/

theorem laplacianAt_cases (fi fj : Nat) :
    (fi = 1 ∧ fj = 1 ∧ laplacianAt fi fj = 8) ∨
      (¬ (fi = 1 ∧ fj = 1) ∧ (laplacianAt fi fj = -1 ∨ laplacianAt fi fj = 0)) := by
  rcases fi with _ | _ | _ | fi <;> rcases fj with _ | _ | _ | fj <;>
    simp [laplacianAt, laplacian]

theorem wrap_small (v : Int) (h1 : -2 ^ 31 ≤ v) (h2 : v < 2 ^ 31) : wrapInt v = v := by
  unfold wrapInt; omega

theorem wrap_add_product (a lo hi : Int) (v : Nat) (c : Int) (hv : v < 256)
    (hc : c = 8 ∨ c = -1 ∨ c = 0) (hlo2 : lo ≤ 2 ^ 30) (hhi2 : hi ≤ 2 ^ 30)
    (ha : -lo ≤ a ∧ a ≤ hi) :
    wrapInt ((v : Int) * c) = (v : Int) * c ∧
      wrapInt (a + wrapInt ((v : Int) * c)) = a + (v : Int) * c ∧
      (c = 8 → -lo ≤ a + (v : Int) * c ∧ a + (v : Int) * c ≤ hi + 2040) ∧
      (c ≠ 8 → -(lo + 255) ≤ a + (v : Int) * c ∧ a + (v : Int) * c ≤ hi) := by
  unfold wrapInt
  rcases hc with rfl | rfl | rfl <;> refine ⟨by omega, by omega, ?_, ?_⟩ <;> intro h <;> omega

/-- One addition of the filter loops from accumulators between `-lo` and `hi`: the `int`
product and sum are the exact ones, and only the centre tap can raise an accumulator. -/
theorem tap_step (image : Buffer) (w h i j fi fj : Nat) (acc : Acc) (lo hi : Int)
    (hlo2 : lo ≤ 2 ^ 30) (hhi2 : hi ≤ 2 ^ 30) (hacc : acc.Between lo hi) :
    tap image w h i j fi fj acc = tapExact image w h i j fi fj acc ∧
      ((fi = 1 ∧ fj = 1) → (tap image w h i j fi fj acc).Between lo (hi + 2040)) ∧
      (¬ (fi = 1 ∧ fj = 1) → (tap image w h i j fi fj acc).Between (lo + 255) hi) := by
  obtain ⟨hr, hg, hb⟩ := hacc
  unfold tap tapExact
  by_cases hc : 0 ≤ wrapInt (wrapInt (toInt j + (fj : Int)) - ((FILTER_WIDTH / 2 : Nat) : Int)) ∧
      0 ≤ wrapInt (wrapInt (toInt i + (fi : Int)) - ((FILTER_HEIGHT / 2 : Nat) : Int)) ∧
      toULong (wrapInt (wrapInt (toInt j + (fj : Int)) - ((FILTER_WIDTH / 2 : Nat) : Int))) < w ∧
      toULong (wrapInt (wrapInt (toInt i + (fi : Int)) - ((FILTER_HEIGHT / 2 : Nat) : Int))) < h
  · simp only [if_pos hc]
    generalize image ((toULong (wrapInt (wrapInt (toInt i + (fi : Int)) -
      ((FILTER_HEIGHT / 2 : Nat) : Int))) * w + toULong (wrapInt (wrapInt (toInt j + (fj : Int)) -
      ((FILTER_WIDTH / 2 : Nat) : Int)))) % ULONG) = px
    have hcases : laplacianAt fi fj = 8 ∨ laplacianAt fi fj = -1 ∨ laplacianAt fi fj = 0 := by
      rcases laplacianAt_cases fi fj with ⟨_, _, h8⟩ | ⟨_, hm | hz⟩
      · exact Or.inl h8
      · exact Or.inr (Or.inl hm)
      · exact Or.inr (Or.inr hz)
    have tr := wrap_add_product acc.red lo hi px.r.val _ px.r.isLt hcases hlo2 hhi2 hr
    have tg := wrap_add_product acc.green lo hi px.g.val _ px.g.isLt hcases hlo2 hhi2 hg
    have tb := wrap_add_product acc.blue lo hi px.b.val _ px.b.isLt hcases hlo2 hhi2 hb
    rw [tr.2.1, tg.2.1, tb.2.1]
    refine ⟨rfl, ?_, ?_⟩
    · intro hcen
      have h8 : laplacianAt fi fj = 8 := by
        rcases laplacianAt_cases fi fj with ⟨_, _, h8⟩ | ⟨hn, _⟩
        · exact h8
        · exact absurd hcen hn
      exact ⟨tr.2.2.1 h8, tg.2.2.1 h8, tb.2.2.1 h8⟩
    · intro hcen
      have h8 : laplacianAt fi fj ≠ 8 := by
        rcases laplacianAt_cases fi fj with ⟨h1, h2, _⟩ | ⟨_, hm | hz⟩
        · exact absurd ⟨h1, h2⟩ hcen
        · rw [hm]; decide
        · rw [hz]; decide
      exact ⟨tr.2.2.2 h8, tg.2.2.2 h8, tb.2.2.2 h8⟩
  · simp only [if_neg hc]
    refine ⟨trivial, ?_, ?_⟩
    · intro _; unfold Acc.Between; omega
    · intro _; unfold Acc.Between; omega

/-- The bounds and exactness of the accumulators after any sequence of taps that starts
within `[-lo, hi]`. -/
theorem taps_between (image : Buffer) (w h i j : Nat) :
    ∀ (l : List (Nat × Nat)) (acc : Acc) (lo hi : Int),
      lo + 255 * (l.length : Int) ≤ 2 ^ 30 → hi + 2040 * (l.length : Int) ≤ 2 ^ 30 →
      acc.Between lo hi →
      l.foldl (fun a t => tap image w h i j t.1 t.2 a) acc =
          l.foldl (fun a t => tapExact image w h i j t.1 t.2 a) acc ∧
        (l.foldl (fun a t => tap image w h i j t.1 t.2 a) acc).Between
          (lo + 255 * ((l.countP fun t => decide (¬ (t.1 = 1 ∧ t.2 = 1)) : Nat) : Int))
          (hi + 2040 * ((l.countP fun t => decide (t.1 = 1 ∧ t.2 = 1) : Nat) : Int)) := by
  intro l
  induction l with
  | nil =>
    intro acc lo hi _ _ hacc
    simpa using hacc
  | cons t rest ih =>
    intro acc lo hi h1 h2 hacc
    have hlen : ((t :: rest).length : Int) = (rest.length : Int) + 1 := by
      simp
    rw [hlen] at h1 h2
    have hn : (0 : Int) ≤ (rest.length : Int) := Int.natCast_nonneg _
    have st := tap_step image w h i j t.1 t.2 acc lo hi (by omega) (by omega) hacc
    rw [List.foldl_cons, List.foldl_cons, ← st.1]
    by_cases hcen : t.1 = 1 ∧ t.2 = 1
    · have r := ih (tap image w h i j t.1 t.2 acc) lo (hi + 2040) (by omega) (by omega)
        (st.2.1 hcen)
      refine ⟨r.1, ?_⟩
      have c1 : (List.countP (fun t => decide (t.1 = 1 ∧ t.2 = 1)) (t :: rest)) =
          List.countP (fun t => decide (t.1 = 1 ∧ t.2 = 1)) rest + 1 :=
        List.countP_cons_of_pos _ _ (decide_eq_true hcen)
      have c2 : (List.countP (fun t => decide (¬ (t.1 = 1 ∧ t.2 = 1))) (t :: rest)) =
          List.countP (fun t => decide (¬ (t.1 = 1 ∧ t.2 = 1))) rest :=
        List.countP_cons_of_neg _ _ (by simp only [decide_eq_true_eq]; exact fun hn => hn hcen)
      rw [c1, c2]
      have := r.2
      unfold Acc.Between at this ⊢
      push_cast
      omega
    · have r := ih (tap image w h i j t.1 t.2 acc) (lo + 255) hi (by omega) (by omega)
        (st.2.2 hcen)
      refine ⟨r.1, ?_⟩
      have c1 : (List.countP (fun t => decide (t.1 = 1 ∧ t.2 = 1)) (t :: rest)) =
          List.countP (fun t => decide (t.1 = 1 ∧ t.2 = 1)) rest :=
        List.countP_cons_of_neg _ _ (by simp only [decide_eq_true_eq]; exact hcen)
      have c2 : (List.countP (fun t => decide (¬ (t.1 = 1 ∧ t.2 = 1))) (t :: rest)) =
          List.countP (fun t => decide (¬ (t.1 = 1 ∧ t.2 = 1))) rest + 1 :=
        List.countP_cons_of_pos _ _ (decide_eq_true hcen)
      rw [c1, c2]
      have := r.2
      unfold Acc.Between at this ⊢
      push_cast
      omega
theorem foldl9 {α β : Type} (f : α → β → α) (a : α) (x1 x2 x3 x4 x5 x6 x7 x8 x9 : β) :
    List.foldl f a [x1, x2, x3, x4, x5, x6, x7, x8, x9] =
      f (f (f (f (f (f (f (f (f a x1) x2) x3) x4) x5) x6) x7) x8) x9 := rfl

/-- The accumulators the filter loops end with are those after all nine additions. -/
theorem filterSum_eq_accAfter (image : Buffer) (w h i j : Nat) :
    filterSum image w h i j = accAfter image w h i j 9 := by
  unfold accAfter
  rw [show List.take 9 tapOrder =
    [(0, 0), (0, 1), (0, 2), (1, 0), (1, 1), (1, 2), (2, 0), (2, 1), (2, 2)] from by decide,
    foldl9, filterSum_unroll, filterRow_unroll, filterRow_unroll, filterRow_unroll]

theorem tapOrder_counts :
    (tapOrder.countP fun t => decide (t.1 = 1 ∧ t.2 = 1)) = 1 ∧
      (tapOrder.countP fun t => decide (¬ (t.1 = 1 ∧ t.2 = 1))) = 8 ∧ tapOrder.length = 9 := by
  decide
theorem accAfter_between (image : Buffer) (w h i j n : Nat) :
    accAfter image w h i j n = accExact image w h i j n ∧
      (accAfter image w h i j n).Between 2040 2040 := by
  have hsub : List.Sublist (tapOrder.take n) tapOrder := List.take_sublist n tapOrder
  have hlen : (tapOrder.take n).length ≤ 9 := by
    have := hsub.length_le
    rw [tapOrder_counts.2.2] at this
    exact this
  have hc := hsub.countP_le (fun t => decide (t.1 = 1 ∧ t.2 = 1))
  have hn := hsub.countP_le (fun t => decide (¬ (t.1 = 1 ∧ t.2 = 1)))
  rw [tapOrder_counts.1] at hc
  rw [tapOrder_counts.2.1] at hn
  have z : (⟨0, 0, 0⟩ : Acc).Between 0 0 := by unfold Acc.Between; simp
  have key := taps_between image w h i j (tapOrder.take n) ⟨0, 0, 0⟩ 0 0 (by omega) (by omega) z
  refine ⟨key.1, ?_⟩
  have hb := key.2
  unfold accAfter
  unfold Acc.Between at hb ⊢
  omega

/-- C19. For every image, every target pixel and every number `n` of additions performed
by the filter loops: the three `int` accumulators lie in `[-2040, 2040]` and equal the
sums computed in unbounded integers; for every pixel value and kernel entry the next
product and the next sum lie in the range of `int`; the loops end with the accumulators
after nine additions; and the byte stored, `(unsigned char) fmax(0, fmin(255, v))`, is
the integer clamp of `v`, a value in `[0, 255]`. -/
theorem accumulators_never_overflow (image : Buffer) (w h i j n : Nat) :
    (accAfter image w h i j n).Between 2040 2040 ∧
    accAfter image w h i j n = accExact image w h i j n ∧
    (∀ (px : PPMPixel) (fi fj : Nat),
      inIntRange ((px.r.val : Int) * laplacianAt fi fj) ∧
      inIntRange ((px.g.val : Int) * laplacianAt fi fj) ∧
      inIntRange ((px.b.val : Int) * laplacianAt fi fj) ∧
      inIntRange ((accAfter image w h i j n).red + (px.r.val : Int) * laplacianAt fi fj) ∧
      inIntRange ((accAfter image w h i j n).green + (px.g.val : Int) * laplacianAt fi fj) ∧
      inIntRange ((accAfter image w h i j n).blue + (px.b.val : Int) * laplacianAt fi fj)) ∧
    filterSum image w h i j = accAfter image w h i j 9 ∧
    ((computePixel image w h i j).r.val : Int) = clamp255 (filterSum image w h i j).red ∧
    ((computePixel image w h i j).g.val : Int) = clamp255 (filterSum image w h i j).green ∧
    ((computePixel image w h i j).b.val : Int) = clamp255 (filterSum image w h i j).blue ∧
    (∀ v : Int, ((toUChar (fmax 0 (fmin 255 v))).val : Int) = clamp255 v ∧
      clamp255 v = (if v < 0 then 0 else if 255 < v then 255 else v) ∧
      0 ≤ clamp255 v ∧ clamp255 v ≤ 255) := by
  have hb := accAfter_between image w h i j n
  refine ⟨hb.2, hb.1, ?_, filterSum_eq_accAfter image w h i j, ?_, ?_, ?_, ?_⟩
  · intro px fi fj
    have hr := px.r.isLt
    have hg := px.g.isLt
    have hbl := px.b.isLt
    obtain ⟨b1, b2, b3⟩ := hb.2
    have hcases : laplacianAt fi fj = 8 ∨ laplacianAt fi fj = -1 ∨ laplacianAt fi fj = 0 := by
      rcases laplacianAt_cases fi fj with ⟨_, _, h8⟩ | ⟨_, hm | hz⟩
      · exact Or.inl h8
      · exact Or.inr (Or.inl hm)
      · exact Or.inr (Or.inr hz)
    unfold inIntRange
    rcases hcases with e | e | e <;> rw [e] <;> omega
  · unfold computePixel
    exact store_clamp _
  · unfold computePixel
    exact store_clamp _
  · unfold computePixel
    exact store_clamp _
  · intro v
    refine ⟨store_clamp v, rfl, ?_, ?_⟩ <;> unfold clamp255 <;> split_ifs <;> omega

/-! ## The accesses of the worker (claim C18) -/

theorem tapRead_def (w h i j fi fj : Nat) :
    tapRead w h i j fi fj =
      if 0 ≤ wrapInt (wrapInt (toInt j + (fj : Int)) - ((FILTER_WIDTH / 2 : Nat) : Int)) ∧
        0 ≤ wrapInt (wrapInt (toInt i + (fi : Int)) - ((FILTER_HEIGHT / 2 : Nat) : Int)) ∧
        toULong (wrapInt (wrapInt (toInt j + (fj : Int)) - ((FILTER_WIDTH / 2 : Nat) : Int))) < w ∧
        toULong (wrapInt (wrapInt (toInt i + (fi : Int)) - ((FILTER_HEIGHT / 2 : Nat) : Int))) < h
      then some ((toULong (wrapInt (wrapInt (toInt i + (fi : Int)) -
          ((FILTER_HEIGHT / 2 : Nat) : Int))) * w +
        toULong (wrapInt (wrapInt (toInt j + (fj : Int)) -
          ((FILTER_WIDTH / 2 : Nat) : Int)))) % ULONG)
      else none := by
  unfold tapRead
  exact rfl

/-- The body of the filter loops reads `image` at `tapRead` and nowhere else. -/
theorem tap_eq_tapRead (image : Buffer) (w h i j fi fj : Nat) (acc : Acc) :
    tap image w h i j fi fj acc = accumulate image fi fj acc (tapRead w h i j fi fj) := by
  rw [tapRead_def]
  unfold tap
  by_cases hc : 0 ≤ wrapInt (wrapInt (toInt j + (fj : Int)) - ((FILTER_WIDTH / 2 : Nat) : Int)) ∧
      0 ≤ wrapInt (wrapInt (toInt i + (fi : Int)) - ((FILTER_HEIGHT / 2 : Nat) : Int)) ∧
      toULong (wrapInt (wrapInt (toInt j + (fj : Int)) - ((FILTER_WIDTH / 2 : Nat) : Int))) < w ∧
      toULong (wrapInt (wrapInt (toInt i + (fi : Int)) - ((FILTER_HEIGHT / 2 : Nat) : Int))) < h
  · rw [if_pos hc, if_pos hc]
    exact rfl
  · rw [if_neg hc, if_neg hc]
    exact rfl

theorem wrapInt_range (v : Int) : -2 ^ 31 ≤ wrapInt v ∧ wrapInt v < 2 ^ 31 := by
  unfold wrapInt; omega

theorem toULong_nonneg (v : Int) (h0 : 0 ≤ v) (h1 : v < 2 ^ 31) : (toULong v : Int) = v := by
  unfold toULong; omega

/-- A read of the filter loops, under the bounds test, is at the offset `y * w + x` of a
pixel `(x, y)` of the image; with both dimensions at most `2 ^ 31` the `int` coordinates
are the exact ones, `x = j + fj - 1` and `y = i + fi - 1`. -/
theorem tapRead_in_bounds (w h i j fi fj k : Nat) (hwh : w * h < ULONG)
    (hk : tapRead w h i j fi fj = some k) :
    ∃ x y, x < w ∧ y < h ∧ k = y * w + x ∧ k < w * h ∧
      (x : Int) = wrapInt (wrapInt (toInt j + (fj : Int)) - 1) ∧
      (y : Int) = wrapInt (wrapInt (toInt i + (fi : Int)) - 1) := by
  rw [tapRead_def, half_filter.1, half_filter.2] at hk
  by_cases hc : 0 ≤ wrapInt (wrapInt (toInt j + (fj : Int)) - 1) ∧
      0 ≤ wrapInt (wrapInt (toInt i + (fi : Int)) - 1) ∧
      toULong (wrapInt (wrapInt (toInt j + (fj : Int)) - 1)) < w ∧
      toULong (wrapInt (wrapInt (toInt i + (fi : Int)) - 1)) < h
  · rw [if_pos hc] at hk
    have hlt := offset_lt w h _ _ hc.2.2.1 hc.2.2.2
    rw [Nat.mod_eq_of_lt (by omega)] at hk
    have hk2 := Option.some.inj hk
    refine ⟨_, _, hc.2.2.1, hc.2.2.2, hk2.symm, by omega, ?_, ?_⟩
    · exact toULong_nonneg _ hc.1 (wrapInt_range _).2
    · exact toULong_nonneg _ hc.2.1 (wrapInt_range _).2
  · rw [if_neg hc] at hk
    exact absurd hk (by simp)

theorem coord_value (c f n : Nat) (hc : c < n) (hn : n ≤ 2 ^ 31) (hf : f < 3)
    (hpos : 0 ≤ wrapInt (wrapInt (toInt c + (f : Int)) - 1)) :
    wrapInt (wrapInt (toInt c + (f : Int)) - 1) = (c : Int) + (f : Int) - 1 ∧ toInt c = c := by
  unfold toInt wrapInt at *
  omega
theorem replay_append (image : Buffer) (w h : Nat) (t1 t2 : List (Nat × Nat × Nat))
    (result : Buffer) :
    replay image w h (t1 ++ t2) result = replay image w h t2 (replay image w h t1 result) := by
  unfold replay
  rw [List.foldl_append]

theorem colLoop_replay (image : Buffer) (w h i : Nat) :
    ∀ (fuel j : Nat) (result : Buffer),
      colLoop image w h i fuel j result = replay image w h (colLoopTrace w i fuel j) result := by
  intro fuel
  induction fuel with
  | zero => intro j result; rfl
  | succ n ih =>
    intro j result
    unfold colLoop colLoopTrace
    by_cases hj : j < w
    · rw [if_pos hj, if_pos hj, ih]
      rfl
    · rw [if_neg hj, if_neg hj]
      rfl

theorem rowLoop_replay (image : Buffer) (p : parameter) :
    ∀ (fuel i : Nat) (result : Buffer),
      rowLoop image p fuel i result = replay image p.w p.h (rowLoopTrace p fuel i) result := by
  intro fuel
  induction fuel with
  | zero => intro i result; rfl
  | succ n ih =>
    intro i result
    unfold rowLoop rowLoopTrace
    by_cases hc : i < (p.start + p.size) % ULONG ∧ i < p.h
    · rw [if_pos hc, if_pos hc, ih, replay_append, colLoop_replay]
    · rw [if_neg hc, if_neg hc]
      rfl

theorem colLoopTrace_mem (w i : Nat) :
    ∀ (fuel j : Nat) (t : Nat × Nat × Nat), t ∈ colLoopTrace w i fuel j →
      t.2.1 = i ∧ t.2.2 < w ∧ t.1 = (i * w + t.2.2) % ULONG := by
  intro fuel
  induction fuel with
  | zero => intro j t ht; simp [colLoopTrace] at ht
  | succ n ih =>
    intro j t ht
    unfold colLoopTrace at ht
    by_cases hj : j < w
    · rw [if_pos hj] at ht
      rcases List.mem_cons.1 ht with rfl | ht2
      · exact ⟨rfl, hj, rfl⟩
      · exact ih _ t ht2
    · rw [if_neg hj] at ht
      simp at ht

theorem rowLoopTrace_mem (p : parameter) :
    ∀ (fuel i : Nat) (t : Nat × Nat × Nat), t ∈ rowLoopTrace p fuel i →
      t.2.1 < p.h ∧ t.2.2 < p.w ∧ t.1 = (t.2.1 * p.w + t.2.2) % ULONG := by
  intro fuel
  induction fuel with
  | zero => intro i t ht; simp [rowLoopTrace] at ht
  | succ n ih =>
    intro i t ht
    unfold rowLoopTrace at ht
    by_cases hc : i < (p.start + p.size) % ULONG ∧ i < p.h
    · rw [if_pos hc] at ht
      rcases List.mem_append.1 ht with h1 | h2
      · obtain ⟨a, b, c⟩ := colLoopTrace_mem p.w i p.w 0 t h1
        rw [a]
        exact ⟨hc.2, b, c⟩
      · exact ih _ t h2
    · rw [if_neg hc] at ht
      simp at ht

/-- C18. For every image whose width and height are at most `2 ^ 31 - 1` and every row
range: the worker's buffer is the result of the stores of its trace; every store
`result[i * w + j]` of the trace has `j < w`, `i < h`, exact casts `(int) i` and `(int) j`,
and an offset below `w * h`; and every read the filter loops perform for that target is
at the offset `y * w + x` of the exact coordinates `x = j + fj - 1`, `y = i + fi - 1`,
with `0 ≤ x < w`, `0 ≤ y < h` and an offset below `w * h`. -/
theorem accesses_in_bounds (image : Buffer) (p : parameter) (result : Buffer)
    (hw : p.w ≤ 2 ^ 31 - 1) (hh : p.h ≤ 2 ^ 31 - 1) :
    compute_laplacian_threadfn image p result =
        replay image p.w p.h (threadTrace p) result ∧
    (∀ acc i j fi fj, tap image p.w p.h i j fi fj acc =
      accumulate image fi fj acc (tapRead p.w p.h i j fi fj)) ∧
    ∀ t, t ∈ threadTrace p →
      t.2.2 < p.w ∧ t.2.1 < p.h ∧ toInt t.2.1 = (t.2.1 : Int) ∧ toInt t.2.2 = (t.2.2 : Int) ∧
      t.1 = t.2.1 * p.w + t.2.2 ∧ t.1 < p.w * p.h ∧
      ∀ fi fj k, fi < FILTER_HEIGHT → fj < FILTER_WIDTH →
        tapRead p.w p.h t.2.1 t.2.2 fi fj = some k →
        ∃ x y : Nat, (x : Int) = (t.2.2 : Int) + (fj : Int) - 1 ∧
          (y : Int) = (t.2.1 : Int) + (fi : Int) - 1 ∧
          x < p.w ∧ y < p.h ∧ k = y * p.w + x ∧ k < p.w * p.h := by
  have hwh : p.w * p.h < ULONG := by
    have h1 : p.w ≤ 2147483647 := by omega
    have h2 : p.h ≤ 2147483647 := by omega
    have := Nat.mul_le_mul h1 h2
    rw [ULONG_eq]; omega
  refine ⟨rowLoop_replay image p _ _ result, fun acc i j fi fj => tap_eq_tapRead _ _ _ _ _ _ _ _,
    ?_⟩
  intro t ht
  obtain ⟨hi, hj, hk⟩ := rowLoopTrace_mem p _ _ t ht
  have hlt := offset_lt p.w p.h _ _ hj hi
  rw [Nat.mod_eq_of_lt (by omega)] at hk
  have ci : toInt t.2.1 = (t.2.1 : Int) := by unfold toInt wrapInt; omega
  have cj : toInt t.2.2 = (t.2.2 : Int) := by unfold toInt wrapInt; omega
  refine ⟨hj, hi, ci, cj, hk, by omega, ?_⟩
  intro fi fj k hfi hfj hread
  obtain ⟨x, y, hx, hy, hkxy, hklt, ex, ey⟩ :=
    tapRead_in_bounds p.w p.h t.2.1 t.2.2 fi fj k hwh hread
  refine ⟨x, y, ?_, ?_, hx, hy, hkxy, hklt⟩
  · have := coord_value t.2.2 fj p.w hj (by omega) hfj (by rw [← ex]; exact Int.natCast_nonneg _)
    rw [ex]; exact this.1
  · have := coord_value t.2.1 fi p.h hi (by omega) hfi (by rw [← ey]; exact Int.natCast_nonneg _)
    rw [ey]; exact this.1

theorem accesses_in_bounds_witness :
    ((3 : Nat) ≤ 2 ^ 31 - 1 ∧ (2 : Nat) ≤ 2 ^ 31 - 1) ∧
    (compute_laplacian_threadfn (constImage white) ⟨3, 2, 1, 7⟩ (constImage black) =
        replay (constImage white) 3 2 (threadTrace ⟨3, 2, 1, 7⟩) (constImage black) ∧
    (∀ acc i j fi fj, tap (constImage white) 3 2 i j fi fj acc =
      accumulate (constImage white) fi fj acc (tapRead 3 2 i j fi fj)) ∧
    ∀ t, t ∈ threadTrace ⟨3, 2, 1, 7⟩ →
      t.2.2 < 3 ∧ t.2.1 < 2 ∧ toInt t.2.1 = (t.2.1 : Int) ∧ toInt t.2.2 = (t.2.2 : Int) ∧
      t.1 = t.2.1 * 3 + t.2.2 ∧ t.1 < 3 * 2 ∧
      ∀ fi fj k, fi < FILTER_HEIGHT → fj < FILTER_WIDTH →
        tapRead 3 2 t.2.1 t.2.2 fi fj = some k →
        ∃ x y : Nat, (x : Int) = (t.2.2 : Int) + (fj : Int) - 1 ∧
          (y : Int) = (t.2.1 : Int) + (fi : Int) - 1 ∧
          x < 3 ∧ y < 2 ∧ k = y * 3 + x ∧ k < 3 * 2) :=
  ⟨⟨by omega, by omega⟩, accesses_in_bounds (constImage white) ⟨3, 2, 1, 7⟩ (constImage black)
    (by show 3 ≤ 2 ^ 31 - 1; omega) (by show 2 ≤ 2 ^ 31 - 1; omega)⟩

/-! ## Image files (claims C11 to C14) -/

theorem digitChar_val (d : Nat) : (digitChar d).val = 48 + d % 10 := by
  unfold digitChar
  show (48 + d % 10) % 256 = 48 + d % 10
  omega

theorem digitChar_isdigit (d : Nat) : isdigit (digitChar d) = true := by
  unfold isdigit
  rw [digitChar_val]
  simp
  omega

theorem decimalFuel_irrelevant :
    ∀ (f1 f2 n : Nat), n < f1 → n < f2 → decimalFuel f1 n = decimalFuel f2 n := by
  intro f1
  induction f1 with
  | zero => intro f2 n h1; omega
  | succ k ih =>
    intro f2 n h1 h2
    cases f2 with
    | zero => omega
    | succ m =>
      unfold decimalFuel
      by_cases hn : n < 10
      · rw [if_pos hn, if_pos hn]
      · rw [if_neg hn, if_neg hn, ih m (n / 10) (by omega) (by omega)]

/-- The digits of `n`: one digit below ten, otherwise the digits of `n / 10` followed by
the last digit. -/
theorem decimal_eq (n : Nat) :
    decimal n = if n < 10 then [digitChar n] else decimal (n / 10) ++ [digitChar (n % 10)] := by
  unfold decimal
  show decimalFuel (n + 1) n = _
  rw [decimalFuel]
  by_cases hn : n < 10
  · rw [if_pos hn, if_pos hn]
  · rw [if_neg hn, if_neg hn, decimalFuel_irrelevant n (n / 10 + 1) (n / 10) (by omega) (by omega)]

theorem decimal_digits (n : Nat) : ∀ c, c ∈ decimal n → isdigit c = true := by
  induction n using Nat.strong_induction_on with
  | _ n ih =>
    intro c hc
    rw [decimal_eq] at hc
    by_cases hn : n < 10
    · rw [if_pos hn] at hc
      rw [List.mem_singleton.1 hc]
      exact digitChar_isdigit n
    · rw [if_neg hn] at hc
      rcases List.mem_append.1 hc with h1 | h2
      · exact ih (n / 10) (by omega) c h1
      · rw [List.mem_singleton.1 h2]
        exact digitChar_isdigit _

theorem decimal_head (n : Nat) : ∃ d ds, decimal n = d :: ds ∧ isdigit d = true := by
  have hne : decimal n ≠ [] := by
    rw [decimal_eq]
    by_cases hn : n < 10
    · rw [if_pos hn]; simp
    · rw [if_neg hn]; simp
  cases hd : decimal n with
  | nil => exact absurd hd hne
  | cons d ds =>
    refine ⟨d, ds, rfl, ?_⟩
    apply decimal_digits n
    rw [hd]
    exact List.mem_cons_self _ _

/-- The value of a string of digits read from the accumulated value `acc`. -/
theorem scanDigits_append (ds : List Byte) (hds : ∀ c, c ∈ ds → isdigit c = true) :
    ∀ (rest : List Byte) (acc : Nat),
      scanDigits (ds ++ rest) acc =
        scanDigits rest (ds.foldl (fun a c => a * 10 + (c.val - 48)) acc) := by
  induction ds with
  | nil => intro rest acc; rfl
  | cons d ds ih =>
    intro rest acc
    have hd : isdigit d = true := hds d (List.mem_cons_self _ _)
    show scanDigits (d :: (ds ++ rest)) acc = _
    rw [scanDigits, if_pos hd, ih (fun c hc => hds c (List.mem_cons_of_mem _ hc))]
    rfl

theorem scanDigits_stop (rest : List Byte) (acc : Nat) (hr : startsWithDigit rest = false) :
    scanDigits rest acc = (acc, rest) := by
  cases rest with
  | nil => rfl
  | cons c s =>
    have hc : ¬ isdigit c = true := by
      intro h
      have : startsWithDigit (c :: s) = true := h
      rw [this] at hr
      exact absurd hr (by simp)
    rw [scanDigits, if_neg hc]

theorem decimal_value (n : Nat) :
    (decimal n).foldl (fun a c => a * 10 + (c.val - 48)) 0 = n := by
  induction n using Nat.strong_induction_on with
  | _ n ih =>
    rw [decimal_eq]
    by_cases hn : n < 10
    · rw [if_pos hn]
      show 0 * 10 + ((digitChar n).val - 48) = n
      rw [digitChar_val]
      omega
    · rw [if_neg hn, List.foldl_append, ih (n / 10) (by omega)]
      show n / 10 * 10 + ((digitChar (n % 10)).val - 48) = n
      rw [digitChar_val]
      omega
theorem isdigit_props (c : Byte) (hc : isdigit c = true) :
    isspace c = false ∧ c.val ≠ 45 ∧ c.val ≠ 43 ∧ c ≠ 35 := by
  unfold isdigit at hc
  have h : 48 ≤ c.val ∧ c.val ≤ 57 := by simpa using hc
  refine ⟨?_, by omega, by omega, ?_⟩
  · unfold isspace
    have h1 : ¬ c.val = 32 := by omega
    have h2 : ¬ (9 ≤ c.val ∧ c.val ≤ 13) := by omega
    simp [h1]
    omega
  · intro he
    rw [he] at h
    exact absurd h (by decide)

theorem dropWhile_space_cons (c : Byte) (s : List Byte) (hc : isspace c = true) :
    (c :: s).dropWhile isspace = s.dropWhile isspace := by
  rw [List.dropWhile_cons, if_pos hc]

theorem dropWhile_stop (c : Byte) (s : List Byte) (hc : isspace c = false) :
    (c :: s).dropWhile isspace = c :: s := by
  rw [List.dropWhile_cons, if_neg (by rw [hc]; simp)]

/-- The conversion `%lu` reads back a printed `unsigned long` that is followed by a byte
that is not a digit. -/
theorem scanULong_decimal (n : Nat) (rest : List Byte) (hn : n < ULONG)
    (hr : startsWithDigit rest = false) :
    scanULong (decimal n ++ rest) = some (n, rest) := by
  obtain ⟨d, ds, hd, hdig⟩ := decimal_head n
  obtain ⟨hsp, hm, hp, _⟩ := isdigit_props d hdig
  have e1 : (decimal n ++ rest).dropWhile isspace = decimal n ++ rest := by
    rw [hd]; exact dropWhile_stop d (ds ++ rest) hsp
  have e2 : afterSign (decimal n ++ rest) = decimal n ++ rest := by
    rw [hd]
    show (if d.val = 45 ∨ d.val = 43 then ds ++ rest else d :: (ds ++ rest)) = _
    rw [if_neg (by omega)]
    rfl
  have e3 : startsWithDigit (decimal n ++ rest) = true := by
    rw [hd]; exact hdig
  have e4 : hasMinus (decimal n ++ rest) = false := by
    rw [hd]
    show decide (d.val = 45) = false
    simp [hm]
  have e5 : scanDigits (decimal n ++ rest) 0 = (n, rest) := by
    rw [scanDigits_append (decimal n) (decimal_digits n), decimal_value, scanDigits_stop rest n hr]
  unfold scanULong
  rw [e1, e2, e3, e4, e5]
  simp only [if_true]
  rw [if_neg (by omega)]
  simp

theorem scanTag_P6 (s : List Byte) : scanTag (80 :: 54 :: s) = some ([80, 54], s) := by
  unfold scanTag
  rw [dropWhile_stop 80 (54 :: s) (by decide)]
  simp only
  rw [if_neg (by decide)]

theorem skipSpaceGet_space (c : Byte) (s : List Byte) (hc : isspace c = true) :
    skipSpaceGet (c :: s) = skipSpaceGet s := by
  rw [skipSpaceGet, if_pos hc]

theorem skipSpaceGet_stop (c : Byte) (s : List Byte) (hc : isspace c = false) :
    skipSpaceGet (c :: s) = (some c, s) := by
  rw [skipSpaceGet, if_neg (by rw [hc]; simp)]

theorem readPixels_pixelsBytes (ps : List PPMPixel) (rest : List Byte) :
    readPixels ps.length (pixelsBytes ps ++ rest) = some ps := by
  induction ps with
  | nil => rfl
  | cons p ps ih =>
    show readPixels (ps.length + 1) (p.r :: p.g :: p.b :: (pixelsBytes ps ++ rest)) = _
    rw [readPixels, ih]
    rfl

theorem bufferPixels_length (image : Buffer) (count : Nat) :
    (bufferPixels image count).length = count := by
  unfold bufferPixels
  simp
theorem skipSpaceGet_length (s : List Byte) :
    (skipSpaceGet s).2.length ≤ s.length ∧
      ((skipSpaceGet s).1 ≠ none → (skipSpaceGet s).2.length < s.length) := by
  induction s with
  | nil => exact ⟨Nat.le_refl _, fun h => absurd rfl h⟩
  | cons c s ih =>
    by_cases hc : isspace c = true
    · rw [skipSpaceGet_space c s hc]
      exact ⟨Nat.le_succ_of_le ih.1, fun h => Nat.lt_succ_of_lt (ih.2 h)⟩
    · have hc2 : isspace c = false := by simpa using hc
      rw [skipSpaceGet_stop c s hc2]
      exact ⟨Nat.le_succ _, fun _ => Nat.lt_succ_self _⟩

theorem skipLine_length (s : List Byte) : (skipLine s).2.length ≤ s.length := by
  induction s with
  | nil => exact Nat.le_refl _
  | cons c s ih =>
    by_cases hc : c.val = 10
    · rw [skipLine, if_pos hc]
      exact Nat.le_succ _
    · rw [skipLine, if_neg hc]
      exact Nat.le_succ_of_le ih

theorem skipLine_body (body s : List Byte) (hb : ∀ b, b ∈ body → b.val ≠ 10) :
    skipLine (body ++ 10 :: s) = (some 10, s) := by
  induction body with
  | nil =>
    show skipLine (10 :: s) = _
    rw [skipLine, if_pos (by decide)]
  | cons b body ih =>
    show skipLine (b :: (body ++ 10 :: s)) = _
    rw [skipLine, if_neg (hb b (List.mem_cons_self _ _)),
      ih (fun c hc => hb c (List.mem_cons_of_mem _ hc))]

/-- The comment-skipping loop does not depend on its iteration bound once the bound
exceeds the length of the stream. -/
theorem skipCommentsFuel_irrelevant :
    ∀ (f1 f2 : Nat) (s : List Byte), s.length < f1 → s.length < f2 →
      skipCommentsFuel f1 s = skipCommentsFuel f2 s := by
  intro f1
  induction f1 with
  | zero => intro f2 s h1; omega
  | succ k ih =>
    intro f2 s h1 h2
    cases f2 with
    | zero => omega
    | succ m =>
      rw [skipCommentsFuel, skipCommentsFuel]
      by_cases hh : (skipSpaceGet s).1 = some 35
      · rw [if_pos hh, if_pos hh]
        by_cases he : (skipLine (skipSpaceGet s).2).1 = none
        · rw [if_pos he, if_pos he]
        · rw [if_neg he, if_neg he]
          have l1 := (skipSpaceGet_length s).2 (by rw [hh]; simp)
          have l2 := skipLine_length (skipSpaceGet s).2
          exact ih m _ (by omega) (by omega)
      · rw [if_neg hh, if_neg hh]

theorem skipComments_space (c : Byte) (s : List Byte) (hc : isspace c = true) :
    skipComments (c :: s) = skipComments s := by
  unfold skipComments
  show skipCommentsFuel (s.length + 1 + 1) (c :: s) = _
  rw [skipCommentsFuel, skipSpaceGet_space c s hc,
    skipCommentsFuel_irrelevant (s.length + 1) (s.length + 1 + 1) s (by omega) (by omega)]
  conv => rhs; rw [skipCommentsFuel]

theorem skipComments_comment (body s : List Byte) (hb : ∀ b, b ∈ body → b.val ≠ 10) :
    skipComments (35 :: (body ++ 10 :: s)) = skipComments s := by
  unfold skipComments
  show skipCommentsFuel ((body ++ 10 :: s).length + 1 + 1) (35 :: (body ++ 10 :: s)) = _
  rw [skipCommentsFuel, skipSpaceGet_stop 35 _ (by decide)]
  simp only [if_true]
  rw [skipLine_body body s hb]
  rw [if_neg (by simp)]
  show skipCommentsFuel ((body ++ 10 :: s).length + 1) s = _
  have hl : s.length < (body ++ 10 :: s).length + 1 := by
    rw [List.length_append, List.length_cons]; omega
  exact skipCommentsFuel_irrelevant _ _ _ hl (by omega)

theorem skipComments_stop (c : Byte) (s : List Byte) (hc : isspace c = false) (h35 : c ≠ 35) :
    skipComments (c :: s) = c :: s := by
  unfold skipComments
  show skipCommentsFuel (s.length + 1 + 1) (c :: s) = _
  rw [skipCommentsFuel, skipSpaceGet_stop c s hc]
  simp only
  rw [if_neg (by intro h; exact h35 (Option.some.inj h))]

/-- The stream after the comment-skipping loop is the same with and without the comment
lines of the items that precede `rest`. -/
theorem skipComments_gap (items : List GapItem) (hok : ∀ it, it ∈ items → it.ok)
    (rest : List Byte) :
    skipComments (renderGap items ++ rest) = skipComments rest ∧
      skipComments (renderSpaces items ++ rest) = skipComments rest := by
  induction items with
  | nil => exact ⟨rfl, rfl⟩
  | cons it items ih =>
    have ih2 := ih (fun x hx => hok x (List.mem_cons_of_mem _ hx))
    have hit := hok it (List.mem_cons_self _ _)
    cases it with
    | space c =>
      have hc : isspace c = true := hit
      constructor
      · show skipComments (c :: (renderGap items ++ rest)) = _
        rw [skipComments_space c _ hc, ih2.1]
      · show skipComments (c :: (renderSpaces items ++ rest)) = _
        rw [skipComments_space c _ hc, ih2.2]
    | comment body =>
      have hb : ∀ b, b ∈ body → b.val ≠ 10 := hit
      constructor
      · show skipComments (35 :: (body ++ 10 :: renderGap items) ++ rest) = _
        have e : 35 :: (body ++ 10 :: renderGap items) ++ rest =
            35 :: (body ++ 10 :: (renderGap items ++ rest)) := by simp
        rw [e, skipComments_comment body _ hb, ih2.1]
      · show skipComments (renderSpaces items ++ rest) = _
        exact ih2.2
theorem dropWhile_decimal (n : Nat) (rest : List Byte) :
    (decimal n ++ rest).dropWhile isspace = decimal n ++ rest := by
  obtain ⟨d, ds, hd, hdig⟩ := decimal_head n
  rw [hd]
  exact dropWhile_stop d (ds ++ rest) (isdigit_props d hdig).1

theorem skipComments_decimal (n : Nat) (rest : List Byte) :
    skipComments (decimal n ++ rest) = decimal n ++ rest := by
  obtain ⟨d, ds, hd, hdig⟩ := decimal_head n
  rw [hd]
  exact skipComments_stop d (ds ++ rest) (isdigit_props d hdig).1 (isdigit_props d hdig).2.2.2

/-- The header part of `read_image` on a printed header with any maximum colour value
`v` followed by any bytes that do not begin with a digit. -/
theorem readHeader_printed (width height v : Nat) (tail : List Byte)
    (hw : width < ULONG) (hh : height < ULONG) (hv : v < 2 ^ 32)
    (ht : startsWithDigit tail = false) :
    readHeader ([80, 54, 10] ++ decimal width ++ [32] ++ decimal height ++ [10] ++
        decimal v ++ tail) =
      if v = 255 then (afterNewline tail).map fun s => (width, height, s) else none := by
  have e0 : [80, 54, 10] ++ decimal width ++ [32] ++ decimal height ++ [10] ++
        decimal v ++ tail =
      80 :: 54 :: (10 :: (decimal width ++ (32 :: (decimal height ++
        (10 :: (decimal v ++ tail)))))) := by
    simp
  have e1 : skipComments (10 :: (decimal width ++ (32 :: (decimal height ++
      (10 :: (decimal v ++ tail)))))) =
      decimal width ++ (32 :: (decimal height ++ (10 :: (decimal v ++ tail)))) := by
    rw [skipComments_space 10 _ (by decide), skipComments_decimal]
  have e2 := scanULong_decimal width
    (32 :: (decimal height ++ (10 :: (decimal v ++ tail)))) hw rfl
  have e3 : (32 :: (decimal height ++ (10 :: (decimal v ++ tail)))).dropWhile isspace =
      decimal height ++ (10 :: (decimal v ++ tail)) := by
    rw [dropWhile_space_cons 32 _ (by decide), dropWhile_decimal]
  have e4 := scanULong_decimal height (10 :: (decimal v ++ tail)) hh rfl
  have e5 : (10 :: (decimal v ++ tail)).dropWhile isspace = decimal v ++ tail := by
    rw [dropWhile_space_cons 10 _ (by decide), dropWhile_decimal]
  have hvU : v < ULONG := by rw [ULONG_eq]; omega
  have e6 : scanUInt (decimal v ++ tail) = some (v, tail) := by
    unfold scanUInt
    rw [scanULong_decimal v tail hvU ht]
    show some (v % 2 ^ 32, tail) = _
    rw [Nat.mod_eq_of_lt hv]
  rw [e0]
  unfold readHeader
  rw [scanTag_P6]
  simp only [Option.some_bind, if_true]
  rw [e1, e2]
  simp only [Option.some_bind]
  rw [e3, e4]
  simp only [Option.some_bind]
  rw [e5, e6]
  simp only [Option.some_bind]

/-- The header part of `read_image` on a stream that begins with a header printed by
`write_image`. -/
theorem readHeader_written (width height : Nat) (data : List Byte)
    (hw : width < ULONG) (hh : height < ULONG) :
    readHeader (write_header width height ++ data) = some (width, height, data) := by
  have e0 : write_header width height ++ data =
      [80, 54, 10] ++ decimal width ++ [32] ++ decimal height ++ [10] ++
        decimal 255 ++ (10 :: data) := by
    rw [show decimal 255 = [50, 53, 53] from by decide]
    simp [write_header]
  rw [e0, readHeader_printed width height 255 (10 :: data) hw hh (by decide) rfl]
  rfl

/-- C11. For every width and height (`unsigned long` values with `w * h` pixel offsets)
and every buffer: when the file opens and `fwrite` writes every pixel, `write_image`
emits the header `"P6\n<w> <h>\n255\n"` followed by the `3 * w * h` channel bytes in
row-major order, and `read_image` accepts these bytes and returns the same width, the
same height and the same pixels, whatever their byte values. -/
theorem write_read_round_trip (image : Buffer) (width height : Nat) (env : WriteEnv)
    (hw : width < ULONG) (hh : height < ULONG) (hwh : width * height < ULONG)
    (hopen : env.fopen = true) (hfw : width * height ≤ env.fwrite) :
    ∃ bytes, write_image image width height env = some bytes ∧
      bytes = [80, 54, 10] ++ decimal width ++ [32] ++ decimal height ++ [10, 50, 53, 53, 10] ++
        pixelsBytes (bufferPixels image (width * height)) ∧
      (pixelsBytes (bufferPixels image (width * height))).length = 3 * (width * height) ∧
      read_image (some bytes) true =
        some (width, height, bufferPixels image (width * height)) := by
  have hcount : min env.fwrite ((width * height) % ULONG) = width * height := by
    rw [Nat.mod_eq_of_lt hwh]; omega
  have hlen : ∀ ps : List PPMPixel, (pixelsBytes ps).length = 3 * ps.length := by
    intro ps
    induction ps with
    | nil => rfl
    | cons p ps ih =>
      show (pixelsBytes ps).length + 1 + 1 + 1 = 3 * (ps.length + 1)
      omega
  refine ⟨_, ?_, rfl, ?_, ?_⟩
  · unfold write_image
    rw [if_pos hopen, hcount]
    rfl
  · rw [hlen, bufferPixels_length]
  · have e : [80, 54, 10] ++ decimal width ++ [32] ++ decimal height ++ [10, 50, 53, 53, 10] ++
        pixelsBytes (bufferPixels image (width * height)) =
        write_header width height ++ pixelsBytes (bufferPixels image (width * height)) := rfl
    rw [e]
    unfold read_image
    simp only [Option.some_bind]
    rw [readHeader_written width height _ hw hh]
    simp only [Option.some_bind, if_true]
    rw [Nat.mod_eq_of_lt hwh]
    have hr := readPixels_pixelsBytes (bufferPixels image (width * height)) []
    rw [bufferPixels_length, List.append_nil] at hr
    rw [hr]
    rfl

theorem write_read_round_trip_witness :
    ((2 : Nat) < ULONG ∧ (3 : Nat) < ULONG ∧ 2 * 3 < ULONG ∧
      (WriteEnv.mk true 6).fopen = true ∧ 2 * 3 ≤ (WriteEnv.mk true 6).fwrite) ∧
    ∃ bytes, write_image (constImage ⟨35, 10, 32⟩) 2 3 ⟨true, 6⟩ = some bytes ∧
      bytes = [80, 54, 10] ++ decimal 2 ++ [32] ++ decimal 3 ++ [10, 50, 53, 53, 10] ++
        pixelsBytes (bufferPixels (constImage ⟨35, 10, 32⟩) (2 * 3)) ∧
      (pixelsBytes (bufferPixels (constImage ⟨35, 10, 32⟩) (2 * 3))).length = 3 * (2 * 3) ∧
      read_image (some bytes) true =
        some (2, 3, bufferPixels (constImage ⟨35, 10, 32⟩) (2 * 3)) :=
  ⟨⟨by decide, by decide, by decide, rfl, by decide⟩,
    write_read_round_trip (constImage ⟨35, 10, 32⟩) 2 3 ⟨true, 6⟩ (by decide) (by decide)
      (by decide) rfl (by decide)⟩

/-- The check of the maximum colour value. For every input whose tag is `P6` and whose
two dimensions are read, if the value the conversion `%u` stores is other than 255 then
`read_image` returns no image, whatever bytes follow; in particular for every printed
header `"P6\n<w> <h>\n<v>"` with `v` below `2 ^ 32` and other than 255, followed by any
bytes. -/
theorem maxval_must_be_255 (s0 : List Byte) (mallocOk : Bool)
    (tag : List Byte × List Byte) (width height maxval : Nat × List Byte)
    (htag : scanTag s0 = some tag) (hp6 : tag.1 = [80, 54])
    (hwidth : scanULong (skipComments tag.2) = some width)
    (hheight : scanULong (width.2.dropWhile isspace) = some height)
    (hmax : scanUInt (height.2.dropWhile isspace) = some maxval)
    (hne : maxval.1 ≠ 255) :
    readHeader s0 = none ∧ read_image (some s0) mallocOk = none ∧
    (∀ w h tail, w < ULONG → h < ULONG → maxval.1 < 2 ^ 32 → startsWithDigit tail = false →
      read_image (some ([80, 54, 10] ++ decimal w ++ [32] ++ decimal h ++ [10] ++
        decimal maxval.1 ++ tail)) mallocOk = none) := by
  have hhead : readHeader s0 = none := by
    unfold readHeader
    rw [htag]
    simp only [Option.some_bind]
    rw [if_pos hp6, hwidth]
    simp only [Option.some_bind]
    rw [hheight]
    simp only [Option.some_bind]
    rw [hmax]
    simp only [Option.some_bind]
    rw [if_neg hne]
  refine ⟨hhead, ?_, ?_⟩
  · unfold read_image
    simp only [Option.some_bind]
    rw [hhead]
    rfl
  · intro w h tail hw hh hv ht
    unfold read_image
    simp only [Option.some_bind]
    rw [readHeader_printed w h maxval.1 tail hw hh hv ht, if_neg hne]
    rfl

theorem maxval_must_be_255_witness :
    (scanTag [80, 54, 10, 49, 32, 49, 10, 50, 53, 52, 10, 1, 2, 3] =
        some ([80, 54], [10, 49, 32, 49, 10, 50, 53, 52, 10, 1, 2, 3]) ∧
      ([80, 54], ([10, 49, 32, 49, 10, 50, 53, 52, 10, 1, 2, 3] : List Byte)).1 = [80, 54] ∧
      scanULong (skipComments
          ([80, 54], ([10, 49, 32, 49, 10, 50, 53, 52, 10, 1, 2, 3] : List Byte)).2) =
        some (1, [32, 49, 10, 50, 53, 52, 10, 1, 2, 3]) ∧
      scanULong ((1, ([32, 49, 10, 50, 53, 52, 10, 1, 2, 3] : List Byte)).2.dropWhile isspace) =
        some (1, [10, 50, 53, 52, 10, 1, 2, 3]) ∧
      scanUInt ((1, ([10, 50, 53, 52, 10, 1, 2, 3] : List Byte)).2.dropWhile isspace) =
        some (254, [10, 1, 2, 3]) ∧
      (254, ([10, 1, 2, 3] : List Byte)).1 ≠ 255) ∧
    (readHeader [80, 54, 10, 49, 32, 49, 10, 50, 53, 52, 10, 1, 2, 3] = none ∧
      read_image (some [80, 54, 10, 49, 32, 49, 10, 50, 53, 52, 10, 1, 2, 3]) true = none ∧
      (∀ w h tail, w < ULONG → h < ULONG →
        (254, ([10, 1, 2, 3] : List Byte)).1 < 2 ^ 32 → startsWithDigit tail = false →
        read_image (some ([80, 54, 10] ++ decimal w ++ [32] ++ decimal h ++ [10] ++
          decimal (254, ([10, 1, 2, 3] : List Byte)).1 ++ tail)) true = none)) :=
  ⟨⟨by decide, rfl, by decide, by decide, by decide, by decide⟩,
    maxval_must_be_255 [80, 54, 10, 49, 32, 49, 10, 50, 53, 52, 10, 1, 2, 3] true
      ([80, 54], [10, 49, 32, 49, 10, 50, 53, 52, 10, 1, 2, 3])
      (1, [32, 49, 10, 50, 53, 52, 10, 1, 2, 3]) (1, [10, 50, 53, 52, 10, 1, 2, 3])
      (254, [10, 1, 2, 3]) (by decide) rfl (by decide) (by decide) (by decide) (by decide)⟩

/-- C12 at the maximum colour value 4294967551. The file `"P6\n1 1\n4294967551\n"`
followed by the pixel bytes `1 2 3` has a maximum colour value other than 255, and
`read_image` returns its pixel: the conversion `%u` stores the value in an
`unsigned int`, where it is `4294967551 mod 2 ^ 32 = 255`. -/
theorem wrapped_maxval_is_accepted :
    decimal 4294967551 = [52, 50, 57, 52, 57, 54, 55, 53, 53, 49] ∧
      (4294967551 : Nat) ≠ 255 ∧
      scanUInt [52, 50, 57, 52, 57, 54, 55, 53, 53, 49, 10, 1, 2, 3] =
        some (255, [10, 1, 2, 3]) ∧
      read_image (some [80, 54, 10, 49, 32, 49, 10, 52, 50, 57, 52, 57, 54, 55, 53, 53, 49,
        10, 1, 2, 3]) true = some (1, 1, [⟨1, 2, 3⟩]) := by
  decide

/-- C13 at a header ended by a blank, a tab or a carriage return. The 1×1 file
`"P6\n1 1\n255"`, one terminator byte, then the three pixel bytes `1 2 3`: `read_image`
returns the pixel when the terminator is a newline and no image when it is a blank
(32), a tab (9) or a carriage return (13). -/
theorem header_terminator_must_be_newline :
    read_image (some [80, 54, 10, 49, 32, 49, 10, 50, 53, 53, 10, 1, 2, 3]) true =
        some (1, 1, [⟨1, 2, 3⟩]) ∧
      read_image (some [80, 54, 10, 49, 32, 49, 10, 50, 53, 53, 32, 1, 2, 3]) true = none ∧
      read_image (some [80, 54, 10, 49, 32, 49, 10, 50, 53, 53, 9, 1, 2, 3]) true = none ∧
      read_image (some [80, 54, 10, 49, 32, 49, 10, 50, 53, 53, 13, 1, 2, 3]) true = none := by
  decide

/-- The header terminator in general: after a printed header with maximum colour value
255, `read_image` goes on to the pixel data exactly when the next byte is a newline. -/
theorem header_terminator (width height : Nat) (t : Byte) (data : List Byte) (mallocOk : Bool)
    (hw : width < ULONG) (hh : height < ULONG) (ht : isdigit t = false) :
    read_image (some ([80, 54, 10] ++ decimal width ++ [32] ++ decimal height ++ [10] ++
        decimal 255 ++ t :: data)) mallocOk =
      if t.val = 10 then
        (if mallocOk then
          (readPixels ((width * height) % ULONG) data).map fun px => (width, height, px)
        else none)
      else none := by
  unfold read_image
  simp only [Option.some_bind]
  rw [readHeader_printed width height 255 (t :: data) hw hh (by decide) ht]
  simp only [if_true]
  show Option.bind (Option.map (fun s => (width, height, s))
    (if t.val = 10 then some data else none)) _ = _
  by_cases h10 : t.val = 10
  · rw [if_pos h10, if_pos h10]
    rfl
  · rw [if_neg h10, if_neg h10]
    rfl

/-- C14. For every sequence of white-space bytes and comment lines between the tag `P6`
and the rest of the input, `read_image` returns what it returns for the same input with
the comment lines left out. -/
theorem comments_are_skipped (items : List GapItem) (rest : List Byte) (mallocOk : Bool)
    (hok : ∀ it, it ∈ items → it.ok) :
    read_image (some (80 :: 54 :: (renderGap items ++ rest))) mallocOk =
      read_image (some (80 :: 54 :: (renderSpaces items ++ rest))) mallocOk := by
  have hg := skipComments_gap items hok rest
  have hhead : readHeader (80 :: 54 :: (renderGap items ++ rest)) =
      readHeader (80 :: 54 :: (renderSpaces items ++ rest)) := by
    unfold readHeader
    rw [scanTag_P6, scanTag_P6]
    simp only [Option.some_bind]
    rw [hg.1, hg.2]
  unfold read_image
  simp only [Option.some_bind]
  rw [hhead]

theorem comments_are_skipped_witness :
    (∀ it, it ∈ [GapItem.space 10, GapItem.comment [104, 105], GapItem.comment [],
        GapItem.space 32] → it.ok) ∧
    read_image (some (80 :: 54 :: (renderGap [GapItem.space 10, GapItem.comment [104, 105],
        GapItem.comment [], GapItem.space 32] ++
        [49, 32, 49, 10, 50, 53, 53, 10, 1, 2, 3]))) true =
      read_image (some (80 :: 54 :: (renderSpaces [GapItem.space 10,
        GapItem.comment [104, 105], GapItem.comment [], GapItem.space 32] ++
        [49, 32, 49, 10, 50, 53, 53, 10, 1, 2, 3]))) true :=
  ⟨by
      intro it hit
      simp only [List.mem_cons, List.mem_singleton, List.not_mem_nil, or_false] at hit
      rcases hit with rfl | rfl | rfl | rfl
      · exact (by decide : isspace 10 = true)
      · intro b hb
        simp only [List.mem_cons, List.mem_singleton, List.not_mem_nil, or_false] at hb
        rcases hb with rfl | rfl <;> decide
      · intro b hb
        exact absurd hb (List.not_mem_nil b)
      · exact (by decide : isspace 32 = true),
    comments_are_skipped _ _ true (by
      intro it hit
      simp only [List.mem_cons, List.mem_singleton, List.not_mem_nil, or_false] at hit
      rcases hit with rfl | rfl | rfl | rfl
      · exact (by decide : isspace 10 = true)
      · intro b hb
        simp only [List.mem_cons, List.mem_singleton, List.not_mem_nil, or_false] at hb
        rcases hb with rfl | rfl <;> decide
      · intro b hb
        exact absurd hb (List.not_mem_nil b)
      · exact (by decide : isspace 32 = true))⟩

/-! ## File jobs and the total (claim C15) -/

theorem filtered_none_of_read {α : Type} (job : JobEnv α)
    (h : read_image job.input job.readMalloc = none) : job.filtered = none := by
  unfold JobEnv.filtered
  rw [h]
  rfl

theorem filtered_of_read {α : Type} (job : JobEnv α) (img : Nat × Nat × List PPMPixel)
    (h : read_image job.input job.readMalloc = some img) :
    job.filtered =
      (apply_filters (toBuffer img.2.2) img.1 img.2.1 job.filter).map fun res =>
        (img.1, img.2.1, res) := by
  unfold JobEnv.filtered
  rw [h]
  rfl

theorem manage_total {α : Type} [Add α] (job : JobEnv α) (total : α) :
    (manage_image_file job total).1 =
      if job.filtered.isSome then total + job.elapsed else total := by
  unfold manage_image_file
  cases job.filtered with
  | none => rfl
  | some r => rfl

theorem runJobs_eq {α : Type} [Add α] (jobs : List (JobEnv α)) :
    ∀ total : α, runJobs jobs total =
      ((jobs.filter fun j => j.filtered.isSome).map fun j => j.elapsed).foldl
        (fun t e => t + e) total := by
  induction jobs with
  | nil => intro total; rfl
  | cons job rest ih =>
    intro total
    show runJobs rest (manage_image_file job total).1 = _
    rw [ih, manage_total]
    by_cases hj : job.filtered.isSome = true
    · rw [if_pos hj]
      simp [List.filter_cons, hj]
    · rw [if_neg hj]
      simp [List.filter_cons, hj]

/-- C15. For every file job and every value of the total: if `read_image` fails, or
`apply_filters` fails, `manage_image_file` leaves the total as it was; if both succeed
the new total is the old one plus the job's elapsed time, added once; and after any
sequence of jobs the total is the starting value with the elapsed times of the jobs
that were read and filtered added to it, in the order of the jobs. -/
theorem failed_job_adds_nothing {α : Type} [Add α] (job : JobEnv α) (total : α) :
    (read_image job.input job.readMalloc = none →
      (manage_image_file job total).1 = total) ∧
    (∀ img, read_image job.input job.readMalloc = some img →
      apply_filters (toBuffer img.2.2) img.1 img.2.1 job.filter = none →
      (manage_image_file job total).1 = total) ∧
    (∀ img res, read_image job.input job.readMalloc = some img →
      apply_filters (toBuffer img.2.2) img.1 img.2.1 job.filter = some res →
      (manage_image_file job total).1 = total + job.elapsed) ∧
    (∀ jobs : List (JobEnv α), runJobs jobs total =
      ((jobs.filter fun j => j.filtered.isSome).map fun j => j.elapsed).foldl
        (fun t e => t + e) total) := by
  refine ⟨?_, ?_, ?_, fun jobs => runJobs_eq jobs total⟩
  · intro h
    rw [manage_total, filtered_none_of_read job h]
    rfl
  · intro img h1 h2
    rw [manage_total, filtered_of_read job img h1, h2]
    rfl
  · intro img res h1 h2
    rw [manage_total, filtered_of_read job img h1, h2]
    rfl

/-! ## Output names (claim C16) -/

theorem decimal_length_le : ∀ (k n : Nat), n < 10 ^ (k + 1) → (decimal n).length ≤ k + 1 := by
  intro k
  induction k with
  | zero =>
    intro n hn
    rw [decimal_eq, if_pos (by simpa using hn)]
    exact Nat.le_refl _
  | succ k ih =>
    intro n hn
    rw [decimal_eq]
    by_cases h10 : n < 10
    · rw [if_pos h10]
      show 1 ≤ k + 1 + 1
      omega
    · rw [if_neg h10, List.length_append]
      have hdiv : n / 10 < 10 ^ (k + 1) := by
        rw [Nat.div_lt_iff_lt_mul (by decide)]
        rw [Nat.pow_succ] at hn
        exact hn
      have := ih (n / 10) hdiv
      show (decimal (n / 10)).length + 1 ≤ k + 1 + 1
      omega

theorem cString_terminated (l t : List Byte) (h : ∀ b, b ∈ l → b ≠ 0) :
    cString (l ++ 0 :: t) = l := by
  unfold cString
  induction l with
  | nil => simp
  | cons c l ih =>
    have hc : c ≠ 0 := h c (List.mem_cons_self c l)
    have hl : ∀ b, b ∈ l → b ≠ 0 := fun b hb => h b (List.mem_cons_of_mem c hb)
    show List.takeWhile (fun b => b != 0) (c :: (l ++ 0 :: t)) = c :: l
    rw [List.takeWhile_cons_of_pos (by simpa using hc), ih hl]

theorem outputName_length (i : Nat) : (outputName i).length = 13 + (decimal i).length := by
  unfold outputName
  simp only [List.length_append, List.length_cons, List.length_nil]
  omega

theorem outputName_nonzero (i : Nat) : ∀ b, b ∈ outputName i → b ≠ 0 := by
  intro b hb
  unfold outputName at hb
  rw [List.mem_append, List.mem_append] at hb
  rcases hb with (hb | hb) | hb
  · intro h0
    rw [h0] at hb
    exact absurd hb (by decide)
  · have hd := decimal_digits i b hb
    unfold isdigit at hd
    intro h0
    rw [h0] at hd
    exact absurd hd (by decide)
  · intro h0
    rw [h0] at hb
    exact absurd hb (by decide)

theorem freshArgs_length (garbage : Nat → Byte) :
    (freshArgs garbage).output_file_name.length = 20 ∧
      (freshArgs garbage).padding.length = 4 := by
  constructor
  · show ((List.range 20).map garbage).length = 20
    rw [List.length_map, List.length_range]
  · show ((List.range STRUCT_PADDING).map fun k => garbage (20 + k)).length = 4
    rw [List.length_map, List.length_range]
    rfl

theorem sprintf_output_fits (i : Nat) (a : file_name_args)
    (hfit : (outputName i).length + 1 ≤ (a.output_file_name ++ a.padding).length) :
    ∃ r, sprintf_output i a = some r ∧ r.input_file_name = a.input_file_name ∧
      r.outputString = outputName i := by
  unfold sprintf_output
  rw [if_pos hfit]
  refine ⟨_, rfl, rfl, ?_⟩
  unfold file_name_args.outputString
  show cString (List.take _ _ ++ List.drop _ _) = _
  rw [List.take_append_drop]
  unfold storeBytes
  rw [List.append_assoc]
  exact cString_terminated _ _ (outputName_nonzero i)

theorem mainArgs_entries (garbage : Nat → Nat → Byte) (inputs : List (List Byte)) :
    ∀ start : Nat, start + inputs.length ≤ 2 ^ 31 →
      ∃ args, mainArgs garbage start inputs = some args ∧ args.length = inputs.length ∧
        ∀ k path, inputs[k]? = some path →
          ∃ a, args[k]? = some a ∧ a.input_file_name = path ∧
            a.outputString = outputName (start + k) := by
  induction inputs with
  | nil =>
    intro start _
    refine ⟨[], rfl, rfl, ?_⟩
    intro k path h
    simp at h
  | cons p rest ih =>
    intro start hs
    have hlen : start + 1 + rest.length ≤ 2 ^ 31 := by
      rw [List.length_cons] at hs
      omega
    obtain ⟨tl, htl, hlen2, hent⟩ := ih (start + 1) hlen
    have hstart : start < 10 ^ 10 := by
      rw [List.length_cons] at hs
      have : (2 : Nat) ^ 31 = 2147483648 := by norm_num
      have : (10 : Nat) ^ 10 = 10000000000 := by norm_num
      omega
    have hdec := decimal_length_le 9 start hstart
    have hfr := freshArgs_length (garbage start)
    have hfit : (outputName start).length + 1 ≤
        ((file_name_args.mk p (freshArgs (garbage start)).output_file_name
          (freshArgs (garbage start)).padding).output_file_name ++
          (file_name_args.mk p (freshArgs (garbage start)).output_file_name
          (freshArgs (garbage start)).padding).padding).length := by
      show (outputName start).length + 1 ≤
        ((freshArgs (garbage start)).output_file_name ++
          (freshArgs (garbage start)).padding).length
      rw [List.length_append, hfr.1, hfr.2, outputName_length]
      omega
    obtain ⟨r, hr, hrin, hrout⟩ := sprintf_output_fits start _ hfit
    refine ⟨r :: tl, ?_, ?_, ?_⟩
    · show Option.bind (sprintf_output start
        (file_name_args.mk p (freshArgs (garbage start)).output_file_name
          (freshArgs (garbage start)).padding)) _ = _
      rw [hr]
      show Option.map _ (mainArgs garbage (start + 1) rest) = _
      rw [htl]
      rfl
    · rw [List.length_cons, List.length_cons, hlen2]
    · intro k path hk
      cases k with
      | zero =>
        refine ⟨r, List.getElem?_cons_zero, ?_, hrout⟩
        rw [hrin]
        simpa using hk
      | succ k =>
        rw [List.getElem?_cons_succ] at hk
        obtain ⟨a, ha, hain, haout⟩ := hent k path hk
        refine ⟨a, ?_, hain, ?_⟩
        · rw [List.getElem?_cons_succ]; exact ha
        · rw [haout]
          have e : start + 1 + k = start + (k + 1) := by omega
          rw [e]

/-- The millionth name: `laplacian1000000.ppm` fills the 20 bytes of `output_file_name`,
its terminating zero byte is the first padding byte of the element, and the string read
at the array is the whole name. -/
theorem millionth_name_in_padding :
    (sprintf_output 1000000 (freshArgs fun _ => 7)).map
        (fun a => (a.output_file_name, a.padding, a.outputString)) =
      some ([108, 97, 112, 108, 97, 99, 105, 97, 110, 49, 48, 48, 48, 48, 48, 48,
          46, 112, 112, 109], [0, 7, 7, 7],
        [108, 97, 112, 108, 97, 99, 105, 97, 110, 49, 48, 48, 48, 48, 48, 48,
          46, 112, 112, 109]) := by
  decide

/-- C16. For every invocation (the argument count an `int`) and every position `i` from 1
to the number of input paths: the loop of `main` fills the array `args`, and the element
handed to the `i`-th file job holds the `i`-th path and, as the string at
`output_file_name`, exactly `laplacian`, the decimal digits of `i`, `.ppm`, whatever the
path is and whatever the array held before. -/
theorem output_name_pattern (garbage : Nat → Nat → Byte) (inputs : List (List Byte)) (i : Nat)
    (path : List Byte) (hargc : inputs.length + 1 ≤ 2 ^ 31 - 1) (h1 : 1 ≤ i)
    (hpath : inputs[i - 1]? = some path) :
    ∃ args a, mainArgs garbage 1 inputs = some args ∧ args.length = inputs.length ∧
      args[i - 1]? = some a ∧ a.input_file_name = path ∧
      a.outputString =
        [108, 97, 112, 108, 97, 99, 105, 97, 110] ++ decimal i ++ [46, 112, 112, 109] := by
  have hs : 1 + inputs.length ≤ 2 ^ 31 := by omega
  obtain ⟨args, hargs, hlen, hent⟩ := mainArgs_entries garbage inputs 1 hs
  obtain ⟨a, ha, hin, hout⟩ := hent (i - 1) path hpath
  refine ⟨args, a, hargs, hlen, ha, hin, ?_⟩
  rw [hout]
  have e : 1 + (i - 1) = i := by omega
  rw [e]
  rfl

theorem output_name_pattern_witness :
    (([[120], [121, 122], [119]] : List (List Byte)).length + 1 ≤ 2 ^ 31 - 1 ∧ 1 ≤ 3 ∧
      ([[120], [121, 122], [119]] : List (List Byte))[3 - 1]? = some [119]) ∧
    ∃ args a, mainArgs (fun _ _ => 7) 1 [[120], [121, 122], [119]] = some args ∧
      args.length = ([[120], [121, 122], [119]] : List (List Byte)).length ∧
      args[3 - 1]? = some a ∧ a.input_file_name = [119] ∧
      a.outputString =
        [108, 97, 112, 108, 97, 99, 105, 97, 110] ++ decimal 3 ++ [46, 112, 112, 109] :=
  ⟨⟨by show 3 + 1 ≤ 2 ^ 31 - 1; omega, by decide, rfl⟩,
    output_name_pattern (fun _ _ => 7) [[120], [121, 122], [119]] 3 [119]
      (by show 3 + 1 ≤ 2 ^ 31 - 1; omega) (by decide) rfl⟩

/-! ## The mutex of the total (claim C17) -/

theorem setAt_same {β : Type} (f : Nat → β) (t : Nat) (v : β) : setAt f t v t = v := by
  unfold setAt
  rw [if_pos rfl]

theorem setAt_other {β : Type} (f : Nat → β) (t u : Nat) (v : β) (h : u ≠ t) :
    setAt f t v u = f u := by
  unfold setAt
  rw [if_neg h]

theorem startState_inv {α : Type} (n : Nat) (t0 : α) : MutexInv (startState n t0) := by
  constructor
  · intro t
    constructor
    · intro h
      exact absurd h (by simp [startState])
    · intro h
      unfold inCritical startState at h
      simp only at h
      by_cases ht : t < n
      · rw [if_pos ht] at h
        rcases h with h | h | h <;> exact absurd h (by decide)
      · rw [if_neg ht] at h
        rcases h with h | h | h <;> exact absurd h (by decide)
  · intro t h
    rfl

/-- A step of any thread keeps the invariant of the mutex. -/
theorem step_inv {α : Type} [Add α] (ok : Nat → Bool) (elapsed : Nat → α) (t : Nat)
    (s : Shared α) (hs : MutexInv s) : MutexInv (step ok elapsed t s) := by
  obtain ⟨hm, hst⟩ := hs
  have hmt := hm t
  unfold inCritical at hmt
  unfold step
  cases hpc : s.pc t with
  | work =>
    simp only
    have hnot : s.mutex ≠ some t := by
      intro h
      rcases hmt.1 h with h | h | h <;> rw [hpc] at h <;> exact absurd h (by decide)
    constructor
    · intro u
      unfold inCritical
      simp only
      by_cases hu : u = t
      · subst hu
        rw [setAt_same]
        constructor
        · intro h; exact absurd h hnot
        · intro h
          cases hok : ok u <;> rw [hok] at h <;>
            rcases h with h | h | h <;> exact absurd h (by decide)
      · rw [setAt_other _ _ _ _ hu]
        exact hm u
    · intro u h
      simp only at h ⊢
      by_cases hu : u = t
      · subst hu
        rw [setAt_same] at h
        cases hok : ok u <;> rw [hok] at h <;> exact absurd h (by decide)
      · rw [setAt_other _ _ _ _ hu] at h
        exact hst u h
  | lock =>
    simp only
    cases hmx : s.mutex with
    | some v =>
      simp only
      constructor
      · intro u; exact hm u
      · exact hst
    | none =>
      simp only
      constructor
      · intro u
        unfold inCritical
        simp only
        by_cases hu : u = t
        · subst hu
          rw [setAt_same]
          exact ⟨fun _ => Or.inl rfl, fun _ => rfl⟩
        · rw [setAt_other _ _ _ _ hu]
          constructor
          · intro h
            exact absurd (Option.some.inj h).symm hu
          · intro h
            have := (hm u).2 h
            rw [hmx] at this
            exact absurd this (by simp)
      · intro u h
        simp only at h ⊢
        by_cases hu : u = t
        · subst hu
          rw [setAt_same] at h
          exact absurd h (by decide)
        · rw [setAt_other _ _ _ _ hu] at h
          exact hst u h
  | load =>
    simp only
    have hold : s.mutex = some t := hmt.2 (Or.inl hpc)
    constructor
    · intro u
      unfold inCritical
      simp only
      by_cases hu : u = t
      · subst hu
        rw [setAt_same]
        exact ⟨fun _ => Or.inr (Or.inl rfl), fun _ => hold⟩
      · rw [setAt_other _ _ _ _ hu]
        exact hm u
    · intro u h
      simp only at h ⊢
      by_cases hu : u = t
      · subst hu
        rw [setAt_same]
      · rw [setAt_other _ _ _ _ hu] at h
        rw [setAt_other _ _ _ _ hu]
        exact hst u h
  | store =>
    simp only
    have hold : s.mutex = some t := hmt.2 (Or.inr (Or.inl hpc))
    constructor
    · intro u
      unfold inCritical
      simp only
      by_cases hu : u = t
      · subst hu
        rw [setAt_same]
        exact ⟨fun _ => Or.inr (Or.inr rfl), fun _ => hold⟩
      · rw [setAt_other _ _ _ _ hu]
        exact hm u
    · intro u h
      simp only at h ⊢
      by_cases hu : u = t
      · subst hu
        rw [setAt_same] at h
        exact absurd h (by decide)
      · rw [setAt_other _ _ _ _ hu] at h
        have hcu : inCritical s u := Or.inr (Or.inl h)
        have := (hm u).2 hcu
        rw [hold] at this
        exact absurd (Option.some.inj this).symm hu
  | unlock =>
    simp only
    have hold : s.mutex = some t := hmt.2 (Or.inr (Or.inr hpc))
    constructor
    · intro u
      unfold inCritical
      simp only
      by_cases hu : u = t
      · subst hu
        rw [setAt_same]
        constructor
        · intro h; exact absurd h (by simp)
        · intro h
          rcases h with h | h | h <;> exact absurd h (by decide)
      · rw [setAt_other _ _ _ _ hu]
        constructor
        · intro h; exact absurd h (by simp)
        · intro h
          have := (hm u).2 h
          rw [hold] at this
          exact absurd (Option.some.inj this).symm hu
    · intro u h
      simp only at h ⊢
      by_cases hu : u = t
      · subst hu
        rw [setAt_same] at h
        exact absurd h (by decide)
      · rw [setAt_other _ _ _ _ hu] at h
        exact hst u h
  | done =>
    simp only
    exact ⟨hm, hst⟩

/-- Every state reached by an interleaving satisfies the invariant of the mutex. -/
theorem runSchedule_inv {α : Type} [Add α] (ok : Nat → Bool) (elapsed : Nat → α) :
    ∀ (sched : List Nat) (s : Shared α), MutexInv s → MutexInv (runSchedule ok elapsed sched s) := by
  intro sched
  induction sched with
  | nil => intro s hs; exact hs
  | cons t rest ih =>
    intro s hs
    exact ih (step ok elapsed t s) (step_inv ok elapsed t s hs)

theorem step_total_store {α : Type} [Add α] (ok : Nat → Bool) (elapsed : Nat → α) (t : Nat)
    (s : Shared α) (h : s.pc t = .store) :
    (step ok elapsed t s).total = s.tmp t + elapsed t := by
  unfold step
  rw [h]

theorem step_total_other {α : Type} [Add α] (ok : Nat → Bool) (elapsed : Nat → α) (t : Nat)
    (s : Shared α) (h : s.pc t ≠ .store) : (step ok elapsed t s).total = s.total := by
  unfold step
  cases hpc : s.pc t with
  | store => exact absurd hpc h
  | lock => cases hmx : s.mutex <;> rfl
  | work => rfl
  | load => rfl
  | unlock => rfl
  | done => rfl

theorem step_pc_other {α : Type} [Add α] (ok : Nat → Bool) (elapsed : Nat → α) (t u : Nat)
    (s : Shared α) (h : u ≠ t) : (step ok elapsed t s).pc u = s.pc u := by
  unfold step
  cases hpc : s.pc t with
  | lock =>
    cases hmx : s.mutex with
    | none => exact setAt_other _ _ _ _ h
    | some v => rfl
  | work => exact setAt_other _ _ _ _ h
  | load => exact setAt_other _ _ _ _ h
  | store => exact setAt_other _ _ _ _ h
  | unlock => exact setAt_other _ _ _ _ h
  | done => rfl

theorem step_pc_store {α : Type} [Add α] (ok : Nat → Bool) (elapsed : Nat → α) (t : Nat)
    (s : Shared α) (h : s.pc t = .store) : (step ok elapsed t s).pc t = .unlock := by
  unfold step
  rw [h]
  exact setAt_same _ _ _

theorem step_rank {α : Type} [Add α] (ok : Nat → Bool) (elapsed : Nat → α) (t u : Nat)
    (s : Shared α) : (s.pc u).rank ≤ ((step ok elapsed t s).pc u).rank := by
  by_cases hu : u = t
  · subst hu
    unfold step
    cases hpc : s.pc u with
    | lock =>
      cases hmx : s.mutex with
      | none =>
        show Pc.lock.rank ≤ (setAt s.pc u Pc.load u).rank
        rw [setAt_same]; decide
      | some v =>
        show Pc.lock.rank ≤ (s.pc u).rank
        rw [hpc]
    | work =>
      show Pc.work.rank ≤ (setAt s.pc u _ u).rank
      rw [setAt_same]
      exact Nat.zero_le _
    | load =>
      show Pc.load.rank ≤ (setAt s.pc u _ u).rank
      rw [setAt_same]; decide
    | store =>
      show Pc.store.rank ≤ (setAt s.pc u _ u).rank
      rw [setAt_same]; decide
    | unlock =>
      show Pc.unlock.rank ≤ (setAt s.pc u _ u).rank
      rw [setAt_same]; decide
    | done =>
      show Pc.done.rank ≤ (s.pc u).rank
      rw [hpc]
  · rw [step_pc_other ok elapsed t u s hu]

theorem storeOrder_cons {α : Type} [Add α] (ok : Nat → Bool) (elapsed : Nat → α) (t : Nat)
    (rest : List Nat) (s : Shared α) :
    storeOrder ok elapsed (t :: rest) s =
      (if s.pc t = .store then [t] else []) ++
        storeOrder ok elapsed rest (step ok elapsed t s) := rfl

theorem storeOrder_rank {α : Type} [Add α] (ok : Nat → Bool) (elapsed : Nat → α) (u : Nat) :
    ∀ (sched : List Nat) (s : Shared α), u ∈ storeOrder ok elapsed sched s →
      (s.pc u).rank ≤ 3 := by
  intro sched
  induction sched with
  | nil => intro s h; exact absurd h (List.not_mem_nil u)
  | cons t rest ih =>
    intro s h
    rw [storeOrder_cons] at h
    rw [List.mem_append] at h
    rcases h with h | h
    · by_cases hst : s.pc t = .store
      · rw [if_pos hst] at h
        have e : u = t := List.mem_singleton.1 h
        rw [e, hst]
        decide
      · rw [if_neg hst] at h
        exact absurd h (List.not_mem_nil u)
    · exact Nat.le_trans (step_rank ok elapsed t u s) (ih _ h)

theorem storeOrder_nodup {α : Type} [Add α] (ok : Nat → Bool) (elapsed : Nat → α) :
    ∀ (sched : List Nat) (s : Shared α), (storeOrder ok elapsed sched s).Nodup := by
  intro sched
  induction sched with
  | nil => intro s; exact List.nodup_nil
  | cons t rest ih =>
    intro s
    rw [storeOrder_cons]
    by_cases hst : s.pc t = .store
    · rw [if_pos hst]
      show (t :: storeOrder ok elapsed rest (step ok elapsed t s)).Nodup
      refine List.nodup_cons.2 ⟨?_, ih _⟩
      intro hmem
      have := storeOrder_rank ok elapsed t rest _ hmem
      rw [step_pc_store ok elapsed t s hst] at this
      exact absurd this (by decide)
    · rw [if_neg hst]
      exact ih _

theorem runSchedule_total {α : Type} [Add α] (ok : Nat → Bool) (elapsed : Nat → α) :
    ∀ (sched : List Nat) (s : Shared α), MutexInv s →
      (runSchedule ok elapsed sched s).total =
        ((storeOrder ok elapsed sched s).map elapsed).foldl (fun a e => a + e) s.total := by
  intro sched
  induction sched with
  | nil => intro s _; rfl
  | cons t rest ih =>
    intro s hs
    show (runSchedule ok elapsed rest (step ok elapsed t s)).total = _
    rw [ih _ (step_inv ok elapsed t s hs), storeOrder_cons]
    by_cases hst : s.pc t = .store
    · rw [if_pos hst, step_total_store ok elapsed t s hst, hs.2 t hst]
      rfl
    · rw [if_neg hst, step_total_other ok elapsed t s hst]
      rfl

theorem critical_unique {α : Type} (s : Shared α) (hs : MutexInv s) (t u : Nat)
    (ht : inCritical s t) (hu : inCritical s u) : t = u := by
  have a := (hs.1 t).2 ht
  have b := (hs.1 u).2 hu
  rw [a] at b
  exact Option.some.inj b

theorem some_thread_moves {α : Type} [Add α] (ok : Nat → Bool) (elapsed : Nat → α)
    (s : Shared α) (hs : MutexInv s) (t : Nat) (ht : s.pc t ≠ .done) :
    ∃ u, (step ok elapsed u s).pc u ≠ s.pc u := by
  cases hmx : s.mutex with
  | some v =>
    refine ⟨v, ?_⟩
    have hc : inCritical s v := (hs.1 v).1 hmx
    unfold step
    rcases hc with h | h | h
    · rw [h]; show setAt s.pc v Pc.store v ≠ Pc.load; rw [setAt_same]; decide
    · rw [h]; show setAt s.pc v Pc.unlock v ≠ Pc.store; rw [setAt_same]; decide
    · rw [h]; show setAt s.pc v Pc.done v ≠ Pc.unlock; rw [setAt_same]; decide
  | none =>
    refine ⟨t, ?_⟩
    have hnc : ¬ inCritical s t := by
      intro h
      have := (hs.1 t).2 h
      rw [hmx] at this
      exact absurd this (by simp)
    unfold inCritical at hnc
    unfold step
    cases hpc : s.pc t with
    | work =>
      show setAt s.pc t _ t ≠ Pc.work
      rw [setAt_same]
      cases ok t <;> decide
    | lock =>
      rw [hmx]
      show setAt s.pc t Pc.load t ≠ Pc.lock
      rw [setAt_same]; decide
    | load => exact absurd (Or.inl hpc) hnc
    | store => exact absurd (Or.inr (Or.inl hpc)) hnc
    | unlock => exact absurd (Or.inr (Or.inr hpc)) hnc
    | done => exact absurd hpc ht

/-- Two file jobs, both read and filtered, interleaved so that the second waits at the
lock while the first is between its lock and its unlock: both elapsed times are added. -/
theorem two_threads_total :
    (runSchedule (fun _ => true) (fun t => t + 1) [0, 1, 0, 1, 1, 0, 0, 0, 1, 1, 1, 1]
      (startState 2 0)).total = 3 ∧
    storeOrder (fun _ => true) (fun t => t + 1) [0, 1, 0, 1, 1, 0, 0, 0, 1, 1, 1, 1]
      (startState 2 0) = [0, 1] := by
  constructor <;> rfl

/-- C17. In every interleaving of the file-job threads (the statements of
`manage_image_file` around the update taken as atomic steps, `pthread_mutex_lock` blocking
while `mutex_total_time` is held), in every state the interleaving reaches from the start
of `main`: a thread about to store to `total_elapsed_time` holds `mutex_total_time`, and no
other step changes the total; at most one thread is between its lock and its unlock; a
thread at its `pthread_mutex_lock` does not hold the mutex, the only lock there is; the
store adds that thread's elapsed time to the current total, so the total reached is the
starting value with the elapsed time of every thread that stored added once, in the order
of the stores; and while a thread is not finished some thread can take a step. -/
theorem total_updated_under_mutex {α : Type} [Add α] (ok : Nat → Bool) (elapsed : Nat → α)
    (n : Nat) (t0 : α) (sched : List Nat) :
    (∀ t, (runSchedule ok elapsed sched (startState n t0)).pc t = .store →
      (runSchedule ok elapsed sched (startState n t0)).mutex = some t) ∧
    (∀ t, (runSchedule ok elapsed sched (startState n t0)).pc t ≠ .store →
      (step ok elapsed t (runSchedule ok elapsed sched (startState n t0))).total =
        (runSchedule ok elapsed sched (startState n t0)).total) ∧
    (∀ t u, inCritical (runSchedule ok elapsed sched (startState n t0)) t →
      inCritical (runSchedule ok elapsed sched (startState n t0)) u → t = u) ∧
    (∀ t, (runSchedule ok elapsed sched (startState n t0)).pc t = .lock →
      (runSchedule ok elapsed sched (startState n t0)).mutex ≠ some t) ∧
    (∀ t, (runSchedule ok elapsed sched (startState n t0)).pc t = .store →
      (step ok elapsed t (runSchedule ok elapsed sched (startState n t0))).total =
        (runSchedule ok elapsed sched (startState n t0)).total + elapsed t) ∧
    ((runSchedule ok elapsed sched (startState n t0)).total =
        ((storeOrder ok elapsed sched (startState n t0)).map elapsed).foldl
          (fun a e => a + e) t0 ∧
      (storeOrder ok elapsed sched (startState n t0)).Nodup ∧
      ∀ t, t ∈ storeOrder ok elapsed sched (startState n t0) → t < n) ∧
    ((∃ t, (runSchedule ok elapsed sched (startState n t0)).pc t ≠ .done) →
      ∃ u, (step ok elapsed u (runSchedule ok elapsed sched (startState n t0))).pc u ≠
        (runSchedule ok elapsed sched (startState n t0)).pc u) := by
  have hs := runSchedule_inv ok elapsed sched (startState n t0) (startState_inv n t0)
  refine ⟨?_, ?_, ?_, ?_, ?_, ⟨?_, ?_, ?_⟩, ?_⟩
  · intro t h
    exact (hs.1 t).2 (Or.inr (Or.inl h))
  · intro t h
    exact step_total_other ok elapsed t _ h
  · intro t u ht hu
    exact critical_unique _ hs t u ht hu
  · intro t h hm
    rcases (hs.1 t).1 hm with c | c | c <;> rw [h] at c <;> exact absurd c (by decide)
  · intro t h
    rw [step_total_store ok elapsed t _ h, hs.2 t h]
  · exact runSchedule_total ok elapsed sched (startState n t0) (startState_inv n t0)
  · exact storeOrder_nodup ok elapsed sched _
  · intro t h
    have := storeOrder_rank ok elapsed t sched _ h
    by_contra hn
    have e : (startState n t0).pc t = .done := by
      show (if t < n then Pc.work else Pc.done) = Pc.done
      rw [if_neg hn]
    rw [e] at this
    exact absurd this (by decide)
  · rintro ⟨t, ht⟩
    exact some_thread_moves ok elapsed _ hs t ht

end EdgeDetector
